import Mathlib

/-!
# Verification of the POLYVAL implementation (RFC 8452 universal hash)

This file gives a shallow embedding, over `Nat`, of the Go implementation of
POLYVAL (package `polyval`): the carry-less multiplier, the Karatsuba field
multiplication with Shift-XOR reflected reduction, the 8-block wide-stride
block engine, the streaming wrapper (`New`, `Update`, `Sum`, `Reset`,
`MarshalBinary`, `UnmarshalBinary`), and the reference GHASH implementation
from `internal/gcm`.  Machine words are `Nat`s together with explicit
`% 2^64` truncation exactly where the Go code relies on 64-bit wrap-around.

On top of the embedding we develop the GF(2^128) theory needed to state and
settle the specification claims: carry-less products (`clmul`), reduction
modulo the POLYVAL polynomial x^128 + x^127 + x^126 + x^121 + 1 (`polymod`),
the RFC 8452 dot operation a·b·x^(-128), and the reflection correspondence
with GHASH.  The algebra is carried out through the coefficient-faithful
map `toPoly : Nat → Polynomial (ZMod 2)`.
-/

open Polynomial

set_option maxRecDepth 8000

/-- Carry-less multiplication, structural recursion on explicit fuel so that
the kernel can evaluate it.  Processes the bits of `a` from the least
significant end. -/
def clmulF : Nat → Nat → Nat → Nat
  | 0, _, _ => 0
  | f + 1, a, b => if a = 0 then 0 else (if a % 2 = 1 then b else 0) ^^^ 2 * clmulF f (a / 2) b

/-- Carry-less (GF(2) polynomial) product of two natural numbers; faithful
for every `a < 2^256`, which covers all 64-, 128- and 256-bit operands in
this development.  This is the mathematical contract of the generated
`ctmul` carry-less multiplier of the implementation. -/
def clmul (a b : Nat) : Nat := clmulF 256 a b

/-- The coefficient-faithful interpretation of a natural number as a
polynomial over GF(2): bit `i` is the coefficient of `X^i`.  Proof-side
only; computations stay on `Nat`. -/
noncomputable def toPoly (n : Nat) : Polynomial (ZMod 2) :=
  if n = 0 then 0 else Polynomial.C ((n % 2 : Nat) : ZMod 2) + Polynomial.X * toPoly (n / 2)
  decreasing_by exact Nat.div_lt_self (Nat.pos_of_ne_zero (by assumption)) (by omega)

theorem toPoly_zero : toPoly 0 = 0 := by
  rw [toPoly]
  simp

theorem toPoly_coeff (n k : Nat) :
    (toPoly n).coeff k = if n.testBit k then 1 else 0 := by
  induction n using Nat.strong_induction_on generalizing k with
  | _ n ih =>
    by_cases h0 : n = 0
    · subst h0
      simp [toPoly_zero, Nat.zero_testBit]
    · rw [toPoly, if_neg h0]
      cases k with
      | zero =>
        rw [Polynomial.coeff_add, Polynomial.mul_coeff_zero]
        simp only [Polynomial.coeff_C_zero, Polynomial.coeff_X_zero, zero_mul, add_zero,
          Nat.testBit_zero]
        rcases Nat.mod_two_eq_zero_or_one n with h | h <;> simp [h]
      | succ k =>
        rw [Polynomial.coeff_add, Polynomial.coeff_C, if_neg (by omega),
          Polynomial.coeff_X_mul, zero_add, ih (n / 2) (Nat.div_lt_self (by omega) (by omega)) k,
          Nat.testBit_succ]

theorem toPoly_inj {m n : Nat} (h : toPoly m = toPoly n) : m = n := by
  apply Nat.eq_of_testBit_eq
  intro i
  have hc := congrArg (fun p => Polynomial.coeff p i) h
  simp only [toPoly_coeff] at hc
  by_cases hm : m.testBit i <;> by_cases hn : n.testBit i <;>
    simp_all

theorem toPoly_one : toPoly 1 = 1 := by
  rw [toPoly]
  simp [toPoly_zero]

theorem toPoly_xor (a b : Nat) : toPoly (a ^^^ b) = toPoly a + toPoly b := by
  apply Polynomial.ext
  intro k
  rw [Polynomial.coeff_add]
  simp only [toPoly_coeff, Nat.testBit_xor]
  by_cases ha : a.testBit k <;> by_cases hb : b.testBit k <;> simp [ha, hb] <;> decide

theorem toPoly_two_mul (n : Nat) : toPoly (2 * n) = Polynomial.X * toPoly n := by
  apply Polynomial.ext
  intro k
  cases k with
  | zero =>
    rw [Polynomial.mul_coeff_zero]
    simp only [toPoly_coeff, Polynomial.coeff_X_zero, zero_mul, Nat.testBit_zero]
    simp [Nat.mul_mod_right]
  | succ k =>
    rw [Polynomial.coeff_X_mul]
    simp only [toPoly_coeff, Nat.testBit_succ]
    rw [Nat.mul_div_cancel_left n (by omega)]

theorem toPoly_two_pow_mul (k n : Nat) :
    toPoly (2 ^ k * n) = Polynomial.X ^ k * toPoly n := by
  induction k with
  | zero => simp
  | succ k ih =>
    have : 2 ^ (k + 1) * n = 2 * (2 ^ k * n) := by ring
    rw [this, toPoly_two_mul, ih]
    ring

theorem toPoly_two_pow (k : Nat) : toPoly (2 ^ k) = Polynomial.X ^ k := by
  have := toPoly_two_pow_mul k 1
  simpa [toPoly_one] using this

theorem toPoly_clmulF (f a b : Nat) (h : a < 2 ^ f) :
    toPoly (clmulF f a b) = toPoly a * toPoly b := by
  induction f generalizing a with
  | zero =>
    have : a = 0 := by simpa using h
    subst this
    simp [clmulF, toPoly_zero]
  | succ f ih =>
    simp only [clmulF]
    by_cases h0 : a = 0
    · simp [h0, toPoly_zero]
    · rw [if_neg h0, toPoly_xor, toPoly_two_mul, ih (a / 2) (by omega)]
      have ha : toPoly a = Polynomial.C ((a % 2 : Nat) : ZMod 2) + Polynomial.X * toPoly (a / 2) := by
        rw [toPoly, if_neg h0]
      rw [ha]
      rcases Nat.mod_two_eq_zero_or_one a with h2 | h2 <;>
        · rw [h2]
          simp [toPoly_zero]
          ring

theorem toPoly_clmul {a : Nat} (b : Nat) (h : a < 2 ^ 256) :
    toPoly (clmul a b) = toPoly a * toPoly b :=
  toPoly_clmulF 256 a b h

theorem clmulF_lt {f a b m n : Nat} (ha : a < 2 ^ m) (hb : b < 2 ^ n) :
    clmulF f a b < 2 ^ (m + n) := by
  induction f generalizing a m with
  | zero =>
    simp only [clmulF]
    positivity
  | succ f ih =>
    simp only [clmulF]
    by_cases h0 : a = 0
    · simp only [h0, if_pos]
      positivity
    · rw [if_neg h0]
      match m, ha with
      | 0, ha =>
        exfalso
        simp only [pow_zero, Nat.lt_one_iff] at ha
        exact h0 ha
      | m + 1, ha =>
        have hpm : (2 : Nat) ^ (m + 1) = 2 ^ m * 2 := Nat.pow_succ ..
        have ha2 : a / 2 < 2 ^ m := by omega
        have h1 : clmulF f (a / 2) b < 2 ^ (m + n) := ih ha2
        have hgoal : (2 : Nat) ^ (m + 1 + n) = 2 ^ (m + n) * 2 := by
          rw [Nat.add_right_comm, Nat.pow_succ]
        have h2 : 2 * clmulF f (a / 2) b < 2 ^ (m + 1 + n) := by omega
        have h3 : (if a % 2 = 1 then b else 0) < 2 ^ (m + 1 + n) := by
          have hb2 : b < 2 ^ (m + 1 + n) :=
            lt_of_lt_of_le hb (Nat.pow_le_pow_right (by omega) (by omega))
          split <;> [exact hb2; positivity]
        exact Nat.xor_lt_two_pow h3 h2

theorem clmul_lt {a b m n : Nat} (ha : a < 2 ^ m) (hb : b < 2 ^ n) :
    clmul a b < 2 ^ (m + n) :=
  clmulF_lt ha hb

theorem toPoly_add_self (a : Nat) : toPoly a + toPoly a = 0 := by
  rw [← toPoly_xor, Nat.xor_self, toPoly_zero]

theorem xor_lt_bit {t a b : Nat} (ha : a < 2 ^ (t + 1)) (hb : b < 2 ^ (t + 1))
    (hat : a.testBit t = true) (hbt : b.testBit t = true) : a ^^^ b < 2 ^ t := by
  apply Nat.lt_pow_two_of_testBit
  intro j hj
  rcases Nat.eq_or_lt_of_le hj with rfl | hj'
  · simp [Nat.testBit_xor, hat, hbt]
  · have haj : a.testBit j = false := Nat.testBit_lt_two_pow (lt_of_lt_of_le ha (Nat.pow_le_pow_right (by omega) hj'))
    have hbj : b.testBit j = false := Nat.testBit_lt_two_pow (lt_of_lt_of_le hb (Nat.pow_le_pow_right (by omega) hj'))
    simp [Nat.testBit_xor, haj, hbj]

theorem lt_two_pow_of_lt_of_testBit {t n : Nat} (h1 : n < 2 ^ (t + 1))
    (h2 : n.testBit t = false) : n < 2 ^ t := by
  apply Nat.lt_pow_two_of_testBit
  intro j hj
  rcases Nat.eq_or_lt_of_le hj with rfl | hj'
  · exact h2
  · exact Nat.testBit_lt_two_pow (lt_of_lt_of_le h1 (Nat.pow_le_pow_right (by omega) hj'))

/-- One step of schoolbook polynomial reduction: clear bit `128 + i` (if set)
by adding the 129-bit modulus `M` shifted by `i`. -/
def redStep (M i n : Nat) : Nat := if n.testBit (128 + i) then n ^^^ M <<< i else n

/-- Iterated reduction steps, clearing bits `128 + i - 1` down to `128`. -/
def redAux (M : Nat) : Nat → Nat → Nat
  | 0, n => n
  | i + 1, n => redAux M i (redStep M i n)

/-- Remainder of a (≤ 256-bit) polynomial `n` over GF(2) modulo the degree-128
polynomial encoded by `M`. -/
def polymodBy (M n : Nat) : Nat := redAux M 128 n

theorem redStep_lt {M i n : Nat} (hMb : M.testBit 128 = true) (hMlt : M < 2 ^ 129)
    (hn : n < 2 ^ (129 + i)) : redStep M i n < 2 ^ (128 + i) := by
  unfold redStep
  split
  · apply xor_lt_bit (t := 128 + i)
    · exact lt_of_lt_of_le hn (Nat.pow_le_pow_right (by omega) (by omega))
    · rw [Nat.shiftLeft_eq]
      calc M * 2 ^ i < 2 ^ 129 * 2 ^ i := by
            exact Nat.mul_lt_mul_of_lt_of_le hMlt (le_refl _) (by positivity)
        _ = 2 ^ (129 + i) := by rw [← Nat.pow_add]
        _ ≤ 2 ^ (128 + i + 1) := by apply Nat.pow_le_pow_right <;> omega
    · assumption
    · rw [Nat.testBit_shiftLeft]
      simp only [ge_iff_le, Nat.le_add_left, decide_True, Bool.true_and]
      rw [Nat.add_sub_cancel]
      exact hMb
  · apply lt_two_pow_of_lt_of_testBit
    · exact lt_of_lt_of_le hn (Nat.pow_le_pow_right (by omega) (by omega))
    · rename_i hcond
      simpa using hcond

theorem redAux_lt {M : Nat} (hMb : M.testBit 128 = true) (hMlt : M < 2 ^ 129) :
    ∀ i n, n < 2 ^ (128 + i) → redAux M i n < 2 ^ 128 := by
  intro i
  induction i with
  | zero => intro n hn; simpa [redAux] using hn
  | succ i ih =>
    intro n hn
    simp only [redAux]
    apply ih
    apply redStep_lt hMb hMlt
    have : 128 + (i + 1) = 129 + i := by omega
    rwa [this] at hn

theorem polymodBy_lt {M : Nat} (hMb : M.testBit 128 = true) (hMlt : M < 2 ^ 129)
    {n : Nat} (hn : n < 2 ^ 256) : polymodBy M n < 2 ^ 128 :=
  redAux_lt hMb hMlt 128 n hn

theorem redStep_cong (M i n : Nat) :
    toPoly M ∣ toPoly (redStep M i n) + toPoly n := by
  unfold redStep
  split
  · have key : toPoly (n ^^^ M <<< i) + toPoly n = toPoly (M <<< i) := by
      rw [toPoly_xor, add_comm (toPoly n) (toPoly (M <<< i)), add_assoc, toPoly_add_self, add_zero]
    rw [key, Nat.shiftLeft_eq, Nat.mul_comm, toPoly_two_pow_mul]
    exact Dvd.intro_left _ rfl
  · rw [toPoly_add_self]
    exact dvd_zero _

theorem redAux_cong (M : Nat) : ∀ i n, toPoly M ∣ toPoly (redAux M i n) + toPoly n := by
  intro i
  induction i with
  | zero => intro n; simp [redAux, toPoly_add_self]
  | succ i ih =>
    intro n
    simp only [redAux]
    have h1 := ih (redStep M i n)
    have h2 := redStep_cong M i n
    have key : toPoly (redAux M i (redStep M i n)) + toPoly n =
        (toPoly (redAux M i (redStep M i n)) + toPoly (redStep M i n)) +
          (toPoly (redStep M i n) + toPoly n) := by
      have := toPoly_add_self (redStep M i n)
      abel_nf
      rw [show (2 : ℤ) • toPoly (redStep M i n) = toPoly (redStep M i n) + toPoly (redStep M i n) by
        rw [two_smul]]
      rw [this]
      abel
    rw [key]
    exact dvd_add h1 h2

theorem polymodBy_cong (M n : Nat) : toPoly M ∣ toPoly (polymodBy M n) + toPoly n :=
  redAux_cong M 128 n

/-- Two reduced values congruent mod a degree-128 modulus are equal. -/
theorem cong_unique {M a b : Nat} (hMb : M.testBit 128 = true)
    (ha : a < 2 ^ 128) (hb : b < 2 ^ 128)
    (h : toPoly M ∣ toPoly a + toPoly b) : a = b := by
  rw [← toPoly_xor] at h
  by_cases hz : a ^^^ b = 0
  · have := Nat.eq_of_testBit_eq (x := a) (y := b) ?_
    · exact this
    · intro i
      have : (a ^^^ b).testBit i = false := by rw [hz]; exact Nat.zero_testBit i
      rw [Nat.testBit_xor] at this
      cases hta : a.testBit i <;> cases htb : b.testBit i <;> simp_all
  · exfalso
    have hne : toPoly (a ^^^ b) ≠ 0 := fun hc => hz (toPoly_inj (hc.trans toPoly_zero.symm))
    have hdeg := Polynomial.natDegree_le_of_dvd h hne
    have hMdeg : 128 ≤ (toPoly M).natDegree := by
      apply Polynomial.le_natDegree_of_ne_zero
      rw [toPoly_coeff, hMb]
      simp
    have hrdeg : (toPoly (a ^^^ b)).natDegree ≤ 127 := by
      rw [Polynomial.natDegree_le_iff_coeff_eq_zero]
      intro m hm
      rw [toPoly_coeff]
      have : (a ^^^ b).testBit m = false := by
        apply Nat.testBit_lt_two_pow
        calc a ^^^ b < 2 ^ 128 := Nat.xor_lt_two_pow ha hb
          _ ≤ 2 ^ m := Nat.pow_le_pow_right (by omega) (by omega)
      rw [this]
      simp
    omega

/-- The POLYVAL field polynomial x^128 + x^127 + x^126 + x^121 + 1 as a bit
string (bit i = coefficient of x^i). -/
def pvPoly : Nat := 2 ^ 128 + 0xC2000000000000000000000000000001

/-- The GHASH field polynomial x^128 + x^7 + x^2 + x + 1. -/
def ghPoly : Nat := 2 ^ 128 + 0x87

/-- Reduction modulo the POLYVAL polynomial. -/
def polymod (n : Nat) : Nat := polymodBy pvPoly n

/-- Reduction modulo the GHASH polynomial. -/
def gmod (n : Nat) : Nat := polymodBy ghPoly n

/-- Plain multiplication in GF(2^128) with the POLYVAL modulus under the
little-endian bit mapping of the specification's data model: carry-less
product followed by polynomial reduction.  This formalises the
specification's "multiplication in GF(2^128) modulo
x^128 + x^127 + x^126 + x^121 + 1". -/
def pmul (a b : Nat) : Nat := polymod (clmul a b)

/-- The representative of x^(-128) in the POLYVAL field:
x^127 + x^124 + x^121 + x^114 + 1 (RFC 8452, section 3). -/
def XINV : Nat := 0x92040000000000000000000000000001

/-- The RFC 8452 dot operation: dot(a, b) = a · b · x^(-128) in the POLYVAL
field.  This is the block multiplication POLYVAL actually uses. -/
def dot (a b : Nat) : Nat := pmul (pmul a b) XINV

theorem pvPoly_testBit : pvPoly.testBit 128 = true := by decide
theorem pvPoly_lt : pvPoly < 2 ^ 129 := by decide
theorem ghPoly_testBit : ghPoly.testBit 128 = true := by decide
theorem ghPoly_lt : ghPoly < 2 ^ 129 := by decide

theorem polymod_lt {n : Nat} (hn : n < 2 ^ 256) : polymod n < 2 ^ 128 :=
  polymodBy_lt pvPoly_testBit pvPoly_lt hn

theorem gmod_lt {n : Nat} (hn : n < 2 ^ 256) : gmod n < 2 ^ 128 :=
  polymodBy_lt ghPoly_testBit ghPoly_lt hn

theorem polymod_cong (n : Nat) : toPoly pvPoly ∣ toPoly (polymod n) + toPoly n :=
  polymodBy_cong pvPoly n

theorem gmod_cong (n : Nat) : toPoly ghPoly ∣ toPoly (gmod n) + toPoly n :=
  polymodBy_cong ghPoly n

namespace polyval

/-- `fieldElement` from polyval.go: a little-endian element of GF(2^128),
two 64-bit limbs. -/
structure fieldElement where
  lo : Nat
  hi : Nat
  deriving DecidableEq

/-- Well-formedness of a field element: both limbs fit in 64 bits. -/
def wfFelt (f : fieldElement) : Prop := f.lo < 2 ^ 64 ∧ f.hi < 2 ^ 64

instance (f : fieldElement) : Decidable (wfFelt f) := by
  unfold wfFelt
  infer_instance

/-- The 128-bit value of a field element. -/
def feltVal (f : fieldElement) : Nat := 2 ^ 64 * f.hi + f.lo

/-- Modelled from the spec: `ctmulGeneric`, the generated constant-time
carry-less multiplier, is produced by `internal/cmd/gen` and its file is not
among the sources; §4.1 of the specification gives its contract — the
128-bit carry-less product of `x` and `y`, returned as `(z1, z0)` =
(high, low) 64-bit halves. -/
def ctmul (x y : Nat) : Nat × Nat := (clmul x y / 2 ^ 64, clmul x y % 2 ^ 64)

/-- The three Karatsuba partial products of `karatsuba1` /
the first half of `polymulGeneric`:
H = x.hi * y.hi, L = x.lo * y.lo, M = (x.hi^x.lo) * (y.hi^y.lo). -/
structure karat3 where
  h1 : Nat
  h0 : Nat
  l1 : Nat
  l0 : Nat
  m1 : Nat
  m0 : Nat

def karat3.xk (a b : karat3) : karat3 :=
  ⟨a.h1 ^^^ b.h1, a.h0 ^^^ b.h0, a.l1 ^^^ b.l1, a.l0 ^^^ b.l0, a.m1 ^^^ b.m1, a.m0 ^^^ b.m0⟩

def karatOf (x y : fieldElement) : karat3 :=
  let hp := ctmul x.hi y.hi
  let lp := ctmul x.lo y.lo
  let mp := ctmul (x.hi ^^^ x.lo) (y.hi ^^^ y.lo)
  ⟨hp.1, hp.2, lp.1, lp.2, mp.1, mp.2⟩

/-- The four "Shift-XOR reflected reduction" lines shared verbatim by
`polymulGeneric` and `polymulBlocksGeneric` (with the middle Karatsuba terms
`m1`, `m0` already folded with `l`, `h` as in the two preceding code lines):

    l1 ^= m0 ^ (l0 << 63) ^ (l0 << 62) ^ (l0 << 57)
    h0 ^= l0 ^ (l0 >> 1) ^ (l0 >> 2) ^ (l0 >> 7)
    h0 ^= m1 ^ (l1 << 63) ^ (l1 << 62) ^ (l1 << 57)
    h1 ^= l1 ^ (l1 >> 1) ^ (l1 >> 2) ^ (l1 >> 7)

returning the element (lo = h0, hi = h1). -/
def reduceLines (h1 h0 l1 l0 m1 m0 : Nat) : fieldElement :=
  let l1b := l1 ^^^ m0 ^^^ l0 <<< 63 % 2 ^ 64 ^^^ l0 <<< 62 % 2 ^ 64 ^^^ l0 <<< 57 % 2 ^ 64
  let h0b := h0 ^^^ l0 ^^^ l0 >>> 1 ^^^ l0 >>> 2 ^^^ l0 >>> 7
  let h0c := h0b ^^^ m1 ^^^ l1b <<< 63 % 2 ^ 64 ^^^ l1b <<< 62 % 2 ^ 64 ^^^ l1b <<< 57 % 2 ^ 64
  let h1b := h1 ^^^ l1b ^^^ l1b >>> 1 ^^^ l1b >>> 2 ^^^ l1b >>> 7
  ⟨h0c, h1b⟩

/-- `polymulGeneric` from polyval.go: Karatsuba multiplication of `acc` by
`key` followed by the Shift-XOR reflected reduction; the result is stored
back into `acc` in Go, returned here. -/
def polymulGeneric (acc key : fieldElement) : fieldElement :=
  let k := karatOf key acc
  reduceLines k.h1 k.h0 k.l1 k.l0 (k.m1 ^^^ k.l1 ^^^ k.h1) (k.m0 ^^^ k.l0 ^^^ k.h0)

/-- The Shift-XOR reflected reduction of `polymulGeneric`, viewed as a
function of an assembled 256-bit product X = (X3, X2, X1, X0) (the middle
Karatsuba terms folded into X1, X2, as in §4.2 step 3 of the spec). -/
def shiftXorReduce (x3 x2 x1 x0 : Nat) : fieldElement :=
  reduceLines x3 x2 x1 x0 0 0

/-- Gueron's Montgomery reduction as implemented in the hardware backend's
`reduce` step (asm generator, comment on `reduce`):

    [A1:A0] = X0 • 0xc200000000000000
    [B1:B0] = [X0 ⊕ A1 : X1 ⊕ A0]
    [C1:C0] = B0 • 0xc200000000000000
    [D1:D0] = [B0 ⊕ C1 : B1 ⊕ C0]
    output [D1 ⊕ X3 : D0 ⊕ X2]. -/
def gueronReduce (x3 x2 x1 x0 : Nat) : fieldElement :=
  let mask : Nat := 0xC200000000000000
  let a := ctmul x0 mask
  let b1 := x0 ^^^ a.1
  let b0 := x1 ^^^ a.2
  let c := ctmul b0 mask
  let d1 := b0 ^^^ c.1
  let d0 := b1 ^^^ c.2
  ⟨d0 ^^^ x2, d1 ^^^ x3⟩

/-- `binary.LittleEndian.Uint64`: little-endian decoding of the first 8
bytes of a byte list. -/
def le64 (bs : List Nat) : Nat :=
  (bs.take 8).foldr (fun b acc => b + 256 * acc) 0

/-- `fieldElement.setBytes`: lo = LE Uint64 of bytes 0..7, hi = LE Uint64 of
bytes 8..15. -/
def setBytes (bs : List Nat) : fieldElement := ⟨le64 bs, le64 (bs.drop 8)⟩

/-- One iteration of the single-block loop of `polymulBlocksGeneric`:
fold the next 16-byte block into `acc` and multiply by `key` (= pow[7]). -/
def singleStep (acc key : fieldElement) (blocks : List Nat) : fieldElement :=
  polymulGeneric ⟨acc.lo ^^^ le64 blocks, acc.hi ^^^ le64 (blocks.drop 8)⟩ key

/-- The message operands of one wide stride: the 8 consecutive blocks,
with the accumulator folded into block 0 (the `if i == 0` branch). -/
def strideBlocks (acc : fieldElement) (blocks : List Nat) : List fieldElement :=
  (List.range 8).map (fun i =>
    let y := setBytes (blocks.drop (16 * i))
    if i = 0 then ⟨y.lo ^^^ acc.lo, y.hi ^^^ acc.hi⟩ else y)

/-- The inner accumulation loop of the wide stride: XOR together the three
Karatsuba partials of the (key power, message block) pairs. -/
def wideAcc : List fieldElement → List fieldElement → karat3
  | x :: xs, y :: ys => (karatOf x y).xk (wideAcc xs ys)
  | _, _ => ⟨0, 0, 0, 0, 0, 0⟩

/-- One 8-block wide stride of `polymulBlocksGeneric`: accumulate Karatsuba
partials across the 8 pairs, then reduce once. -/
def wideStep (acc : fieldElement) (pow : List fieldElement) (blocks : List Nat) :
    fieldElement :=
  let k := wideAcc pow (strideBlocks acc blocks)
  reduceLines k.h1 k.h0 k.l1 k.l0 (k.m1 ^^^ k.l1 ^^^ k.h1) (k.m0 ^^^ k.l0 ^^^ k.h0)

/-- `polymulBlocksGeneric` from polyval.go, fuelled (the fuel is an upper
bound on the number of loop iterations; `blocks.length` always suffices).
First loop: single blocks while the remaining block count is not a multiple
of 8; second loop: 8-block wide strides while at least 128 bytes remain. -/
def polymulBlocksGenericF : Nat → fieldElement → List fieldElement → List Nat → fieldElement
  | 0, acc, _, _ => acc
  | fuel + 1, acc, pow, blocks =>
    if (blocks.length / 16) % 8 ≠ 0 then
      polymulBlocksGenericF fuel (singleStep acc (pow.getD 7 ⟨0, 0⟩) blocks) pow
        (blocks.drop 16)
    else if 16 * 8 ≤ blocks.length then
      polymulBlocksGenericF fuel (wideStep acc pow blocks) pow (blocks.drop 128)
    else acc

/-- `polymulBlocksGeneric` from polyval.go. -/
def polymulBlocksGeneric (acc : fieldElement) (pow : List fieldElement)
    (blocks : List Nat) : fieldElement :=
  polymulBlocksGenericF blocks.length acc pow blocks

/-- Errors returned by `New` in polyval.go. -/
inductive KeyErr where
  | invalidKeySize
  | invalidKey
  deriving DecidableEq

/-- The streaming state from polyval.go: hash key `h`, running state `y`,
table `pow` of 8 precomputed key powers. -/
structure Polyval where
  h : fieldElement
  y : fieldElement
  pow : List fieldElement
  deriving DecidableEq

/-- The zero-key check of `New`: `v ^= key[i]` over all key bytes. -/
def xorFold (key : List Nat) : Nat := key.foldl (fun v b => v ^^^ b) 0

/-- The power chain of `New`: `powChain h n` is the value written to
`pow[7 - n]`; `powChain h 0 = h` and each further entry is
`polymul(h, previous)`. -/
def powChain (h : fieldElement) : Nat → fieldElement
  | 0 => h
  | n + 1 => polymulGeneric h (powChain h n)

/-- The power table `pow[0..7]` built by `New`: pow[i] = powChain h (7-i). -/
def newPow (h : fieldElement) : List fieldElement :=
  (List.range 8).map (fun i => powChain h (7 - i))

/-- `New` from polyval.go: reject keys whose length is not 16; reject keys
whose bytes XOR to zero (the code's zero-key check); otherwise build the
context with `h` = little-endian decoding of the key and the power table. -/
def New (key : List Nat) : Except KeyErr Polyval :=
  if key.length ≠ 16 then .error .invalidKeySize
  else if xorFold key = 0 then .error .invalidKey
  else
    let h := setBytes key
    .ok ⟨h, ⟨0, 0⟩, newPow h⟩

/-- `Reset` from polyval.go: zero the running state. -/
def Reset (p : Polyval) : Polyval := { p with y := ⟨0, 0⟩ }

/-- `Update` from polyval.go on the generic (no-asm) build: panic (`none`)
when the input length is not a multiple of 16, otherwise run the generic
block engine. -/
def Update (p : Polyval) (blocks : List Nat) : Option Polyval :=
  if blocks.length % 16 ≠ 0 then none
  else some { p with y := polymulBlocksGeneric p.y p.pow blocks }

/-- `Update` as dispatched on arm64 (polyval_arm64.go): when `haveAsm` the
engine is called as `polymulBlocksAsm(acc, pow, &blocks[0], len(blocks)/16)`
and evaluating `&blocks[0]` on an empty slice panics (`none`).  Modelled
from the spec for the engine itself: the PMULL assembly body is not among
the sources, and §4.6 requires every backend to be bit-identical to the
generic engine, so it is modelled by `polymulBlocksGeneric`. -/
def UpdateArm64 (haveAsm : Bool) (p : Polyval) (blocks : List Nat) : Option Polyval :=
  if blocks.length % 16 ≠ 0 then none
  else if haveAsm then
    match blocks with
    | [] => none
    | _ :: _ => some { p with y := polymulBlocksGeneric p.y p.pow blocks }
  else some { p with y := polymulBlocksGeneric p.y p.pow blocks }

/-- `binary.LittleEndian.PutUint64`: the 8 little-endian bytes of `n`. -/
def putLE64 (n : Nat) : List Nat :=
  [n % 256, n / 256 % 256, n / 256 ^ 2 % 256, n / 256 ^ 3 % 256,
   n / 256 ^ 4 % 256, n / 256 ^ 5 % 256, n / 256 ^ 6 % 256, n / 256 ^ 7 % 256]

/-- `Sum` from polyval.go: append the 16 little-endian bytes of `y` to `b`;
the receiver is not modified. -/
def Sum (p : Polyval) (b : List Nat) : List Nat :=
  b ++ (putLE64 p.y.lo ++ putLE64 p.y.hi)

/-- The 16-byte serialization of one field element: lo then hi. -/
def putFelt (f : fieldElement) : List Nat := putLE64 f.lo ++ putLE64 f.hi

/-- `MarshalBinary` from polyval.go: h, y, then pow[0..7], each as a
little-endian u64 pair. -/
def MarshalBinary (p : Polyval) : List Nat :=
  putFelt p.h ++ putFelt p.y ++ (p.pow.map putFelt).join

/-- `UnmarshalBinary` from polyval.go: require exactly 160 bytes, then
decode h, y and pow[0..7]; every field of the receiver is overwritten, so
the result depends only on `data`. -/
def UnmarshalBinary (data : List Nat) : Option Polyval :=
  if data.length ≠ 160 then none
  else some ⟨setBytes data, setBytes (data.drop 16),
    (List.range 8).map (fun i => setBytes (data.drop (32 + 16 * i)))⟩

/-- `fieldElement.double` (mulx) from polyval.go: multiply by x in
GF(2^128). -/
def double (x : fieldElement) : fieldElement :=
  let h := x.hi >>> 63
  let hi := (x.hi <<< 1 % 2 ^ 64) ^^^ x.lo >>> 63
  let lo := x.lo <<< 1 % 2 ^ 64
  let lo2 := lo ^^^ h
  let hi2 := hi ^^^ h <<< 63 % 2 ^ 64 ^^^ h <<< 62 % 2 ^ 64 ^^^ h <<< 57 % 2 ^ 64
  ⟨lo2, hi2⟩

end polyval

theorem xor_mod_two_pow (a b n : Nat) : (a ^^^ b) % 2 ^ n = a % 2 ^ n ^^^ b % 2 ^ n := by
  apply Nat.eq_of_testBit_eq
  intro i
  simp only [Nat.testBit_mod_two_pow, Nat.testBit_xor]
  by_cases h : i < n <;> simp [h]

theorem xor_shiftRight (a b k : Nat) : (a ^^^ b) >>> k = a >>> k ^^^ b >>> k := by
  apply Nat.eq_of_testBit_eq
  intro i
  simp [Nat.testBit_shiftRight, Nat.testBit_xor]

theorem xor_disjoint_add {k b : Nat} (a : Nat) (hb : b < 2 ^ k) :
    2 ^ k * a ^^^ b = 2 ^ k * a + b := by
  rw [Nat.mul_add_lt_is_or hb]
  apply Nat.eq_of_testBit_eq
  intro i
  simp only [Nat.testBit_xor, Nat.testBit_or]
  by_cases h : i < k
  · have h1 : (2 ^ k * a).testBit i = false := by
      have : 2 ^ k * a = 2 ^ k * a + 0 := by omega
      rw [this, Nat.testBit_mul_pow_two_add a (by positivity) i]
      simp [h, Nat.zero_testBit]
    simp [h1]
  · have h2 : b.testBit i = false :=
      Nat.testBit_lt_two_pow (lt_of_lt_of_le hb (Nat.pow_le_pow_right (by omega) (by omega)))
    simp [h2]

theorem div_mod_recombine (z k : Nat) : 2 ^ k * (z / 2 ^ k) ^^^ z % 2 ^ k = z := by
  rw [xor_disjoint_add _ (Nat.mod_lt z (by positivity))]
  exact Nat.div_add_mod z (2 ^ k)

theorem mul_two_pow_xor (k a b : Nat) : 2 ^ k * (a ^^^ b) = 2 ^ k * a ^^^ 2 ^ k * b := by
  apply toPoly_inj
  rw [toPoly_xor, toPoly_two_pow_mul, toPoly_two_pow_mul, toPoly_two_pow_mul, toPoly_xor]
  ring

theorem mul_shiftRight_cancel {j k : Nat} (a : Nat) (hjk : j ≤ k) :
    (2 ^ j * a) >>> k = a >>> (k - j) := by
  rcases Nat.exists_eq_add_of_le hjk with ⟨d, rfl⟩
  rw [Nat.shiftRight_eq_div_pow, Nat.shiftRight_eq_div_pow, Nat.add_sub_cancel_left,
    Nat.pow_add, Nat.mul_div_mul_left]
  positivity

namespace polyval

theorem ctmul_lo (x y : Nat) : (ctmul x y).2 = clmul x y % 2 ^ 64 := rfl

theorem ctmul_hi (x y : Nat) : (ctmul x y).1 = clmul x y / 2 ^ 64 := rfl

theorem ctmul_lo_lt (x y : Nat) : (ctmul x y).2 < 2 ^ 64 :=
  Nat.mod_lt _ (by positivity)

theorem ctmul_hi_lt {x y : Nat} (hx : x < 2 ^ 64) (hy : y < 2 ^ 64) :
    (ctmul x y).1 < 2 ^ 64 := by
  rw [ctmul_hi]
  have h := clmul_lt hx hy
  omega

theorem ctmul_recombine (x y : Nat) :
    2 ^ 64 * (ctmul x y).1 ^^^ (ctmul x y).2 = clmul x y :=
  div_mod_recombine (clmul x y) 64

/-- The split halves of a 64×64 carry-less product interpret back to the
product of the interpretations. -/
theorem ctmul_toPoly {x : Nat} (y : Nat) (hx : x < 2 ^ 256) :
    Polynomial.X ^ 64 * toPoly (ctmul x y).1 + toPoly (ctmul x y).2 =
      toPoly x * toPoly y := by
  have h := congrArg toPoly (ctmul_recombine x y)
  rw [toPoly_xor, toPoly_two_pow_mul, toPoly_clmul y hx] at h
  rw [← toPoly_two_pow 64] at h ⊢
  exact h

/-- 128-bit value of a pair of 64-bit limbs, as an XOR combination. -/
theorem feltVal_eq_xor {f : fieldElement} (hf : wfFelt f) :
    feltVal f = 2 ^ 64 * f.hi ^^^ f.lo := by
  rw [feltVal, ← xor_disjoint_add f.hi hf.1]

theorem feltVal_lt {f : fieldElement} (hf : wfFelt f) : feltVal f < 2 ^ 128 := by
  have h1 := hf.1
  have h2 := hf.2
  unfold feltVal
  have : (2 : Nat) ^ 128 = 2 ^ 64 * 2 ^ 64 := by rw [← Nat.pow_add]
  nlinarith

/-- Limbwise XOR of field elements matches 128-bit XOR of their values. -/
theorem feltVal_xor {a b : fieldElement} (ha : wfFelt a) (hb : wfFelt b) :
    feltVal ⟨a.lo ^^^ b.lo, a.hi ^^^ b.hi⟩ = feltVal a ^^^ feltVal b := by
  have hwf : wfFelt ⟨a.lo ^^^ b.lo, a.hi ^^^ b.hi⟩ :=
    ⟨Nat.xor_lt_two_pow ha.1 hb.1, Nat.xor_lt_two_pow ha.2 hb.2⟩
  rw [feltVal_eq_xor hwf, feltVal_eq_xor ha, feltVal_eq_xor hb]
  show 2 ^ 64 * (a.hi ^^^ b.hi) ^^^ (a.lo ^^^ b.lo) = _
  rw [mul_two_pow_xor]
  rw [Nat.xor_assoc, Nat.xor_comm (2 ^ 64 * b.hi) (a.lo ^^^ b.lo), Nat.xor_assoc,
    Nat.xor_comm b.lo (2 ^ 64 * b.hi), ← Nat.xor_assoc, ← Nat.xor_assoc]

/-- The assembled 256-bit product (X3, X2, X1, X0) as a single number. -/
def val4 (x3 x2 x1 x0 : Nat) : Nat :=
  2 ^ 192 * x3 ^^^ 2 ^ 128 * x2 ^^^ 2 ^ 64 * x1 ^^^ x0

theorem val4_lt {x3 x2 x1 x0 : Nat} (h3 : x3 < 2 ^ 64) (h2 : x2 < 2 ^ 64)
    (h1 : x1 < 2 ^ 64) (h0 : x0 < 2 ^ 64) : val4 x3 x2 x1 x0 < 2 ^ 256 := by
  unfold val4
  have b3 : 2 ^ 192 * x3 < 2 ^ 256 := by
    have : (2 : Nat) ^ 256 = 2 ^ 192 * 2 ^ 64 := by rw [← Nat.pow_add]
    nlinarith
  have b2 : 2 ^ 128 * x2 < 2 ^ 256 := by
    have : (2 : Nat) ^ 192 = 2 ^ 128 * 2 ^ 64 := by rw [← Nat.pow_add]
    have hlt : 2 ^ 128 * x2 < 2 ^ 192 := by nlinarith
    exact lt_of_lt_of_le hlt (Nat.pow_le_pow_right (by omega) (by omega))
  have b1 : 2 ^ 64 * x1 < 2 ^ 256 := by
    have : (2 : Nat) ^ 128 = 2 ^ 64 * 2 ^ 64 := by rw [← Nat.pow_add]
    have hlt : 2 ^ 64 * x1 < 2 ^ 128 := by nlinarith
    exact lt_of_lt_of_le hlt (Nat.pow_le_pow_right (by omega) (by omega))
  have b0 : x0 < 2 ^ 256 := lt_of_lt_of_le h0 (Nat.pow_le_pow_right (by omega) (by omega))
  exact Nat.xor_lt_two_pow (Nat.xor_lt_two_pow (Nat.xor_lt_two_pow b3 b2) b1) b0

/-- The 256-bit product assembled by the engine out of the (possibly
accumulated) Karatsuba partials, middle terms folded as in the code. -/
def assembleX (k : karat3) : Nat :=
  val4 k.h1 (k.h0 ^^^ (k.m1 ^^^ k.l1 ^^^ k.h1)) (k.l1 ^^^ (k.m0 ^^^ k.l0 ^^^ k.h0)) k.l0

end polyval

theorem hchar : (2 : Polynomial (ZMod 2)) = 0 := by
  have := CharP.cast_eq_zero (Polynomial (ZMod 2)) 2
  exact_mod_cast this

namespace polyval

/-- Well-formedness of an accumulated Karatsuba triple: all six words fit
in 64 bits. -/
def wfK (k : karat3) : Prop :=
  k.h1 < 2 ^ 64 ∧ k.h0 < 2 ^ 64 ∧ k.l1 < 2 ^ 64 ∧ k.l0 < 2 ^ 64 ∧
    k.m1 < 2 ^ 64 ∧ k.m0 < 2 ^ 64

theorem karatOf_wf {x y : fieldElement} (hx : wfFelt x) (hy : wfFelt y) :
    wfK (karatOf x y) := by
  obtain ⟨hx1, hx2⟩ := hx
  obtain ⟨hy1, hy2⟩ := hy
  refine ⟨?_, ?_, ?_, ?_, ?_, ?_⟩ <;>
    first
      | exact ctmul_hi_lt (by assumption) (by assumption)
      | exact ctmul_lo_lt ..
      | exact ctmul_hi_lt (Nat.xor_lt_two_pow hx2 hx1) (Nat.xor_lt_two_pow hy2 hy1)

theorem xk_wf {a b : karat3} (ha : wfK a) (hb : wfK b) : wfK (a.xk b) := by
  obtain ⟨a1, a2, a3, a4, a5, a6⟩ := ha
  obtain ⟨b1, b2, b3, b4, b5, b6⟩ := hb
  exact ⟨Nat.xor_lt_two_pow a1 b1, Nat.xor_lt_two_pow a2 b2, Nat.xor_lt_two_pow a3 b3,
    Nat.xor_lt_two_pow a4 b4, Nat.xor_lt_two_pow a5 b5, Nat.xor_lt_two_pow a6 b6⟩

/-- The Karatsuba assembly is correct: the 256-bit number assembled from the
three partial products of `karatOf x y` interprets to the polynomial product
of the interpretations of `x` and `y`. -/
theorem karat_toPoly {x y : fieldElement} (hx : wfFelt x) (hy : wfFelt y) :
    toPoly (assembleX (karatOf x y)) = toPoly (feltVal x) * toPoly (feltVal y) := by
  obtain ⟨hx1, hx2⟩ := hx
  obtain ⟨hy1, hy2⟩ := hy
  have big : (2 : Nat) ^ 64 < 2 ^ 256 := by norm_num
  have hH := ctmul_toPoly (x := x.hi) y.hi (lt_trans hx2 big)
  have hL := ctmul_toPoly (x := x.lo) y.lo (lt_trans hx1 big)
  have hM := ctmul_toPoly (x := x.hi ^^^ x.lo) (y.hi ^^^ y.lo)
    (lt_trans (Nat.xor_lt_two_pow hx2 hx1) big)
  rw [toPoly_xor, toPoly_xor] at hM
  rw [feltVal_eq_xor ⟨hx1, hx2⟩, feltVal_eq_xor ⟨hy1, hy2⟩, toPoly_xor, toPoly_xor,
    toPoly_two_pow_mul, toPoly_two_pow_mul]
  simp only [assembleX, karatOf, val4, toPoly_xor, toPoly_two_pow_mul]
  linear_combination (Polynomial.X ^ 128 + Polynomial.X ^ 64) * hH +
    Polynomial.X ^ 64 * hM + (Polynomial.X ^ 64 + 1) * hL +
    Polynomial.X ^ 64 * (toPoly x.hi * toPoly y.hi + toPoly x.lo * toPoly y.lo) * hchar

end polyval

namespace polyval

theorem mask_lt : (0xC200000000000000 : Nat) < 2 ^ 64 := by norm_num

theorem clmul_mask {a : Nat} (ha : a < 2 ^ 256) :
    clmul a 0xC200000000000000 = 2 ^ 63 * a ^^^ 2 ^ 62 * a ^^^ 2 ^ 57 * a := by
  apply toPoly_inj
  have hm : (0xC200000000000000 : Nat) = 2 ^ 63 ^^^ 2 ^ 62 ^^^ 2 ^ 57 := by decide
  rw [toPoly_clmul _ ha, hm, toPoly_xor, toPoly_xor, toPoly_two_pow, toPoly_two_pow,
    toPoly_two_pow, toPoly_xor, toPoly_xor, toPoly_two_pow_mul, toPoly_two_pow_mul,
    toPoly_two_pow_mul]
  ring

theorem ctmul_mask_lo {a : Nat} (ha : a < 2 ^ 64) :
    (ctmul a 0xC200000000000000).2 =
      a <<< 63 % 2 ^ 64 ^^^ a <<< 62 % 2 ^ 64 ^^^ a <<< 57 % 2 ^ 64 := by
  have ha' : a < 2 ^ 256 := lt_trans ha (by norm_num)
  rw [ctmul_lo, clmul_mask ha', xor_mod_two_pow, xor_mod_two_pow,
    Nat.shiftLeft_eq, Nat.shiftLeft_eq, Nat.shiftLeft_eq,
    Nat.mul_comm a (2 ^ 63), Nat.mul_comm a (2 ^ 62), Nat.mul_comm a (2 ^ 57)]

theorem ctmul_mask_hi {a : Nat} (ha : a < 2 ^ 64) :
    (ctmul a 0xC200000000000000).1 = a >>> 1 ^^^ a >>> 2 ^^^ a >>> 7 := by
  have ha' : a < 2 ^ 256 := lt_trans ha (by norm_num)
  rw [ctmul_hi, clmul_mask ha', ← Nat.shiftRight_eq_div_pow, xor_shiftRight, xor_shiftRight,
    mul_shiftRight_cancel a (by omega), mul_shiftRight_cancel a (by omega),
    mul_shiftRight_cancel a (by omega)]

theorem xor_left_comm (a b c : Nat) : a ^^^ (b ^^^ c) = b ^^^ (a ^^^ c) := by
  rw [← Nat.xor_assoc, Nat.xor_comm a b, Nat.xor_assoc]

/-- The two reduction algorithms agree word for word: Gueron's two-CLMUL
Montgomery reduction computes exactly the Shift-XOR reflected reduction. -/
theorem gueron_eq_shiftXor {x3 x2 x1 x0 : Nat} (h3 : x3 < 2 ^ 64) (h2 : x2 < 2 ^ 64)
    (h1 : x1 < 2 ^ 64) (h0 : x0 < 2 ^ 64) :
    gueronReduce x3 x2 x1 x0 = shiftXorReduce x3 x2 x1 x0 := by
  have hb0 : x1 ^^^ (ctmul x0 0xC200000000000000).2 < 2 ^ 64 :=
    Nat.xor_lt_two_pow h1 (ctmul_lo_lt ..)
  simp only [gueronReduce, shiftXorReduce, reduceLines, Nat.xor_zero, Nat.zero_xor]
  rw [ctmul_mask_lo hb0, ctmul_mask_hi hb0, ctmul_mask_lo h0, ctmul_mask_hi h0]
  have hassoc : x1 ^^^ (x0 <<< 63 % 2 ^ 64 ^^^ x0 <<< 62 % 2 ^ 64 ^^^ x0 <<< 57 % 2 ^ 64)
      = x1 ^^^ x0 <<< 63 % 2 ^ 64 ^^^ x0 <<< 62 % 2 ^ 64 ^^^ x0 <<< 57 % 2 ^ 64 := by
    simp [Nat.xor_assoc]
  rw [hassoc]
  generalize x1 ^^^ x0 <<< 63 % 2 ^ 64 ^^^ x0 <<< 62 % 2 ^ 64 ^^^ x0 <<< 57 % 2 ^ 64 = B
  rw [fieldElement.mk.injEq]
  constructor <;>
    simp [Nat.xor_assoc, Nat.xor_comm, xor_left_comm]

end polyval

namespace polyval

theorem gueronReduce_wf {x3 x2 x1 x0 : Nat} (h3 : x3 < 2 ^ 64) (h2 : x2 < 2 ^ 64)
    (h1 : x1 < 2 ^ 64) (h0 : x0 < 2 ^ 64) : wfFelt (gueronReduce x3 x2 x1 x0) := by
  have ha1 : (ctmul x0 0xC200000000000000).1 < 2 ^ 64 := ctmul_hi_lt h0 mask_lt
  have hb0 : x1 ^^^ (ctmul x0 0xC200000000000000).2 < 2 ^ 64 :=
    Nat.xor_lt_two_pow h1 (ctmul_lo_lt ..)
  have hc1 : (ctmul (x1 ^^^ (ctmul x0 0xC200000000000000).2) 0xC200000000000000).1 < 2 ^ 64 :=
    ctmul_hi_lt hb0 mask_lt
  simp only [gueronReduce, wfFelt]
  constructor
  · exact Nat.xor_lt_two_pow (Nat.xor_lt_two_pow (Nat.xor_lt_two_pow h0 ha1) (ctmul_lo_lt ..)) h2
  · exact Nat.xor_lt_two_pow (Nat.xor_lt_two_pow hb0 hc1) h3

/-- The polynomial of the POLYVAL modulus, split at the 64-bit boundary. -/
theorem pvPoly_split :
    toPoly pvPoly = Polynomial.X ^ 128 + Polynomial.X ^ 64 * toPoly 0xC200000000000000 + 1 := by
  have hsplit : pvPoly = 2 ^ 128 ^^^ 2 ^ 64 * 0xC200000000000000 ^^^ 1 := by decide
  rw [hsplit, toPoly_xor, toPoly_xor, toPoly_two_pow, toPoly_two_pow_mul, toPoly_one]

/-- Montgomery correctness of Gueron's reduction: the reduced value `R`
satisfies R·x^128 ≡ X modulo the POLYVAL polynomial. -/
theorem gueronReduce_mont {x3 x2 x1 x0 : Nat} (h3 : x3 < 2 ^ 64) (h2 : x2 < 2 ^ 64)
    (h1 : x1 < 2 ^ 64) (h0 : x0 < 2 ^ 64) :
    toPoly pvPoly ∣
      Polynomial.X ^ 128 * toPoly (feltVal (gueronReduce x3 x2 x1 x0)) +
        toPoly (val4 x3 x2 x1 x0) := by
  have hA := ctmul_toPoly (x := x0) 0xC200000000000000 (lt_trans h0 (by norm_num))
  have hb0lt : x1 ^^^ (ctmul x0 0xC200000000000000).2 < 2 ^ 64 :=
    Nat.xor_lt_two_pow h1 (ctmul_lo_lt ..)
  have hC := ctmul_toPoly (x := x1 ^^^ (ctmul x0 0xC200000000000000).2) 0xC200000000000000
    (lt_trans hb0lt (by norm_num))
  rw [toPoly_xor] at hC
  have hwf := gueronReduce_wf h3 h2 h1 h0
  refine ⟨toPoly x0 + Polynomial.X ^ 64 *
    (toPoly x1 + toPoly (ctmul x0 0xC200000000000000).2), ?_⟩
  rw [feltVal_eq_xor hwf, pvPoly_split]
  simp only [gueronReduce, val4]
  simp only [toPoly_xor, toPoly_two_pow_mul]
  linear_combination (Polynomial.X ^ 128) * hC + (Polynomial.X ^ 64) * hA +
    (Polynomial.X ^ 192 * toPoly x3 + Polynomial.X ^ 128 * toPoly x2 -
      Polynomial.X ^ 64 * toPoly (ctmul x0 0xC200000000000000).2) * hchar

end polyval

namespace polyval

theorem reduceLines_eq_shiftXor (h1 h0 l1 l0 m1 m0 : Nat) :
    reduceLines h1 h0 l1 l0 m1 m0 = shiftXorReduce h1 (h0 ^^^ m1) (l1 ^^^ m0) l0 := by
  simp only [shiftXorReduce, reduceLines, Nat.xor_zero]
  generalize l1 ^^^ m0 ^^^ l0 <<< 63 % 2 ^ 64 ^^^ l0 <<< 62 % 2 ^ 64 ^^^ l0 <<< 57 % 2 ^ 64 = B
  rw [fieldElement.mk.injEq]
  constructor <;>
    simp [Nat.xor_assoc, Nat.xor_comm, xor_left_comm]

theorem shiftRight_lt_64 {a : Nat} (ha : a < 2 ^ 64) (k : Nat) : a >>> k < 2 ^ 64 := by
  rw [Nat.shiftRight_eq_div_pow]
  exact lt_of_le_of_lt (Nat.div_le_self a (2 ^ k)) ha

theorem reduceLines_wf {h1 h0 l1 l0 m1 m0 : Nat} (b1 : h1 < 2 ^ 64) (b0 : h0 < 2 ^ 64)
    (c1 : l1 < 2 ^ 64) (c0 : l0 < 2 ^ 64) (d1 : m1 < 2 ^ 64) (d0 : m0 < 2 ^ 64) :
    wfFelt (reduceLines h1 h0 l1 l0 m1 m0) := by
  have hm : ∀ x k : Nat, x <<< k % 2 ^ 64 < 2 ^ 64 := fun x k => Nat.mod_lt _ (by positivity)
  have hl1b : l1 ^^^ m0 ^^^ l0 <<< 63 % 2 ^ 64 ^^^ l0 <<< 62 % 2 ^ 64 ^^^
      l0 <<< 57 % 2 ^ 64 < 2 ^ 64 :=
    Nat.xor_lt_two_pow (Nat.xor_lt_two_pow (Nat.xor_lt_two_pow
      (Nat.xor_lt_two_pow c1 d0) (hm ..)) (hm ..)) (hm ..)
  simp only [reduceLines, wfFelt]
  constructor
  · exact Nat.xor_lt_two_pow (Nat.xor_lt_two_pow (Nat.xor_lt_two_pow (Nat.xor_lt_two_pow
      (Nat.xor_lt_two_pow (Nat.xor_lt_two_pow (Nat.xor_lt_two_pow (Nat.xor_lt_two_pow
        b0 c0) (shiftRight_lt_64 c0 1)) (shiftRight_lt_64 c0 2)) (shiftRight_lt_64 c0 7))
          d1) (hm ..)) (hm ..)) (hm ..)
  · exact Nat.xor_lt_two_pow (Nat.xor_lt_two_pow (Nat.xor_lt_two_pow (Nat.xor_lt_two_pow
      b1 hl1b) (shiftRight_lt_64 hl1b 1)) (shiftRight_lt_64 hl1b 2)) (shiftRight_lt_64 hl1b 7)

/-- `polymulGeneric` is the Shift-XOR reduction of the assembled Karatsuba
product of `key` and `acc`. -/
theorem polymulGeneric_shape (acc key : fieldElement) :
    polymulGeneric acc key =
      shiftXorReduce (karatOf key acc).h1
        ((karatOf key acc).h0 ^^^ ((karatOf key acc).m1 ^^^ (karatOf key acc).l1 ^^^ (karatOf key acc).h1))
        ((karatOf key acc).l1 ^^^ ((karatOf key acc).m0 ^^^ (karatOf key acc).l0 ^^^ (karatOf key acc).h0))
        (karatOf key acc).l0 := by
  rw [polymulGeneric, reduceLines_eq_shiftXor]

theorem polymulGeneric_wf {acc key : fieldElement} (hacc : wfFelt acc)
    (hkey : wfFelt key) : wfFelt (polymulGeneric acc key) := by
  have hk := karatOf_wf hkey hacc
  obtain ⟨k1, k2, k3, k4, k5, k6⟩ := hk
  exact reduceLines_wf k1 k2 k3 k4
    (Nat.xor_lt_two_pow (Nat.xor_lt_two_pow k5 k3) k1)
    (Nat.xor_lt_two_pow (Nat.xor_lt_two_pow k6 k4) k2)

/-- Montgomery correctness of the single-block field multiplication:
`polymulGeneric acc key` times x^128 is congruent, modulo the POLYVAL
polynomial, to the product of the interpretations of `key` and `acc`. -/
theorem polymulGeneric_mont {acc key : fieldElement} (hacc : wfFelt acc)
    (hkey : wfFelt key) :
    toPoly pvPoly ∣
      Polynomial.X ^ 128 * toPoly (feltVal (polymulGeneric acc key)) +
        toPoly (feltVal key) * toPoly (feltVal acc) := by
  have hk := karatOf_wf hkey hacc
  obtain ⟨k1, k2, k3, k4, k5, k6⟩ := hk
  have w3 : (karatOf key acc).h1 < 2 ^ 64 := k1
  have w2 : (karatOf key acc).h0 ^^^
      ((karatOf key acc).m1 ^^^ (karatOf key acc).l1 ^^^ (karatOf key acc).h1) < 2 ^ 64 :=
    Nat.xor_lt_two_pow k2 (Nat.xor_lt_two_pow (Nat.xor_lt_two_pow k5 k3) k1)
  have w1 : (karatOf key acc).l1 ^^^
      ((karatOf key acc).m0 ^^^ (karatOf key acc).l0 ^^^ (karatOf key acc).h0) < 2 ^ 64 :=
    Nat.xor_lt_two_pow k3 (Nat.xor_lt_two_pow (Nat.xor_lt_two_pow k6 k4) k2)
  have w0 : (karatOf key acc).l0 < 2 ^ 64 := k4
  rw [polymulGeneric_shape, ← gueron_eq_shiftXor w3 w2 w1 w0]
  have hmont := gueronReduce_mont w3 w2 w1 w0
  have hkar : toPoly (val4 (karatOf key acc).h1
      ((karatOf key acc).h0 ^^^ ((karatOf key acc).m1 ^^^ (karatOf key acc).l1 ^^^ (karatOf key acc).h1))
      ((karatOf key acc).l1 ^^^ ((karatOf key acc).m0 ^^^ (karatOf key acc).l0 ^^^ (karatOf key acc).h0))
      (karatOf key acc).l0) = toPoly (feltVal key) * toPoly (feltVal acc) :=
    karat_toPoly hkey hacc
  rwa [hkar] at hmont

end polyval

namespace polyval

theorem XINV_lt : XINV < 2 ^ 128 := by norm_num [XINV]

set_option maxRecDepth 20000 in
theorem xinv_mul_x128 : polymod (clmul XINV (2 ^ 128)) = 1 := by decide

theorem pmul_lt {a b : Nat} (ha : a < 2 ^ 128) (hb : b < 2 ^ 128) :
    pmul a b < 2 ^ 128 :=
  polymod_lt (clmul_lt ha hb)

theorem dot_lt {a b : Nat} (ha : a < 2 ^ 128) (hb : b < 2 ^ 128) :
    dot a b < 2 ^ 128 :=
  pmul_lt (pmul_lt ha hb) XINV_lt

theorem pmul_cong {a : Nat} (b : Nat) (ha : a < 2 ^ 256) :
    toPoly pvPoly ∣ toPoly (pmul a b) + toPoly a * toPoly b := by
  have h := polymod_cong (clmul a b)
  rwa [toPoly_clmul b ha] at h

theorem cong_trans2 {M a b c : Polynomial (ZMod 2)} (h1 : M ∣ a + b) (h2 : M ∣ b + c) :
    M ∣ a + c := by
  have key : a + c = (a + b) + (b + c) := by linear_combination (-b) * hchar
  rw [key]
  exact dvd_add h1 h2

theorem cong_symm2 {M a b : Polynomial (ZMod 2)} (h : M ∣ a + b) : M ∣ b + a := by
  rwa [add_comm] at h

theorem cong_mul_right2 {M a b : Polynomial (ZMod 2)} (u : Polynomial (ZMod 2))
    (h : M ∣ a + b) : M ∣ a * u + b * u := by
  have key : a * u + b * u = (a + b) * u := by ring
  rw [key]
  exact h.mul_right u

/-- x^128 · XINV ≡ 1 modulo the POLYVAL polynomial. -/
theorem xinv_cong :
    toPoly pvPoly ∣ Polynomial.X ^ 128 * toPoly XINV + 1 := by
  have h := polymod_cong (clmul XINV (2 ^ 128))
  rw [xinv_mul_x128, toPoly_one, toPoly_clmul (2 ^ 128) (lt_trans XINV_lt (by norm_num)),
    toPoly_two_pow] at h
  have key : toPoly XINV * Polynomial.X ^ 128 = Polynomial.X ^ 128 * toPoly XINV := by ring
  rw [key] at h
  exact cong_symm2 h

/-- Montgomery characterisation of the RFC 8452 dot operation. -/
theorem dot_mont {a b : Nat} (ha : a < 2 ^ 128) (hb : b < 2 ^ 128) :
    toPoly pvPoly ∣ Polynomial.X ^ 128 * toPoly (dot a b) + toPoly a * toPoly b := by
  have ha' : a < 2 ^ 256 := lt_trans ha (by norm_num)
  have hpm : pmul a b < 2 ^ 256 := lt_trans (pmul_lt ha hb) (by norm_num)
  have h1 := pmul_cong b ha'
  have h2 := pmul_cong XINV hpm
  have h2' := cong_mul_right2 (Polynomial.X ^ 128) h2
  have h3 := xinv_cong
  have h4 : toPoly pvPoly ∣ toPoly (pmul a b) * toPoly XINV * Polynomial.X ^ 128 +
      toPoly (pmul a b) := by
    have := cong_mul_right2 (toPoly (pmul a b)) h3
    have key : Polynomial.X ^ 128 * toPoly XINV * toPoly (pmul a b) +
        1 * toPoly (pmul a b) =
        toPoly (pmul a b) * toPoly XINV * Polynomial.X ^ 128 + toPoly (pmul a b) := by
      ring
    rwa [key] at this
  have h5 : toPoly pvPoly ∣ Polynomial.X ^ 128 * toPoly (dot a b) +
      toPoly (pmul a b) := by
    have key : toPoly (dot a b) * Polynomial.X ^ 128 +
        toPoly (pmul a b) * toPoly XINV * Polynomial.X ^ 128 =
        Polynomial.X ^ 128 * toPoly (dot a b) +
          toPoly (pmul a b) * toPoly XINV * Polynomial.X ^ 128 := by ring
    exact cong_trans2 (by rw [← key]; exact cong_mul_right2 (Polynomial.X ^ 128) h2) h4
  exact cong_trans2 h5 h1

/-- x does not divide the POLYVAL polynomial (its constant coefficient is 1). -/
theorem pv_coprime_X : IsCoprime (Polynomial.X : Polynomial (ZMod 2)) (toPoly pvPoly) := by
  rw [Polynomial.prime_X.coprime_iff_not_dvd, Polynomial.X_dvd_iff]
  rw [toPoly_coeff]
  have : pvPoly.testBit 0 = true := by decide
  rw [this]
  simp

theorem cancel_X_pow {k : Nat} {s : Polynomial (ZMod 2)}
    (h : toPoly pvPoly ∣ Polynomial.X ^ k * s) : toPoly pvPoly ∣ s := by
  have hc : IsCoprime (toPoly pvPoly) ((Polynomial.X : Polynomial (ZMod 2)) ^ k) :=
    (pv_coprime_X.symm.pow_right)
  exact hc.dvd_of_dvd_mul_left h

/-- Two reduced values whose x^k-multiples agree modulo the POLYVAL
polynomial are equal. -/
theorem eq_of_mont {k r1 r2 : Nat} (h1 : r1 < 2 ^ 128) (h2 : r2 < 2 ^ 128)
    (hc : toPoly pvPoly ∣ Polynomial.X ^ k * toPoly r1 + Polynomial.X ^ k * toPoly r2) :
    r1 = r2 := by
  have key : Polynomial.X ^ k * toPoly r1 + Polynomial.X ^ k * toPoly r2 =
      Polynomial.X ^ k * (toPoly r1 + toPoly r2) := by ring
  rw [key] at hc
  exact cong_unique pvPoly_testBit h1 h2 (cancel_X_pow hc)

/-- The single-block multiplication of the implementation computes the
RFC 8452 dot operation. -/
theorem polymulGeneric_dot {acc key : fieldElement} (hacc : wfFelt acc)
    (hkey : wfFelt key) :
    feltVal (polymulGeneric acc key) = dot (feltVal acc) (feltVal key) := by
  have h1 := polymulGeneric_mont hacc hkey
  have h2 := dot_mont (feltVal_lt hacc) (feltVal_lt hkey)
  have h2' : toPoly pvPoly ∣ toPoly (feltVal key) * toPoly (feltVal acc) +
      Polynomial.X ^ 128 * toPoly (dot (feltVal acc) (feltVal key)) := by
    have key : toPoly (feltVal acc) * toPoly (feltVal key) =
        toPoly (feltVal key) * toPoly (feltVal acc) := by ring
    rw [key] at h2
    exact cong_symm2 h2
  exact eq_of_mont (feltVal_lt (polymulGeneric_wf hacc hkey))
    (dot_lt (feltVal_lt hacc) (feltVal_lt hkey)) (cong_trans2 h1 h2')

end polyval

namespace polyval

theorem assembleX_xk (a b : karat3) :
    assembleX (a.xk b) = assembleX a ^^^ assembleX b := by
  apply toPoly_inj
  simp only [assembleX, karat3.xk, val4, toPoly_xor, toPoly_two_pow_mul]
  ring

theorem assembleX_zero : assembleX ⟨0, 0, 0, 0, 0, 0⟩ = 0 := by decide

theorem assembleX_bounds {k : karat3} (hk : wfK k) :
    k.h1 < 2 ^ 64 ∧
      k.h0 ^^^ (k.m1 ^^^ k.l1 ^^^ k.h1) < 2 ^ 64 ∧
        k.l1 ^^^ (k.m0 ^^^ k.l0 ^^^ k.h0) < 2 ^ 64 ∧ k.l0 < 2 ^ 64 := by
  obtain ⟨k1, k2, k3, k4, k5, k6⟩ := hk
  exact ⟨k1, Nat.xor_lt_two_pow k2 (Nat.xor_lt_two_pow (Nat.xor_lt_two_pow k5 k3) k1),
    Nat.xor_lt_two_pow k3 (Nat.xor_lt_two_pow (Nat.xor_lt_two_pow k6 k4) k2), k4⟩

theorem wideAcc_wf : ∀ (xs ys : List fieldElement), (∀ x ∈ xs, wfFelt x) →
    (∀ y ∈ ys, wfFelt y) → wfK (wideAcc xs ys)
  | [], ys, _, _ => by
    cases ys <;> norm_num [wideAcc, wfK]
  | _ :: _, [], _, _ => by norm_num [wideAcc, wfK]
  | x :: xs, y :: ys, hxs, hys => by
    simp only [wideAcc]
    exact xk_wf (karatOf_wf (hxs x (by simp)) (hys y (by simp)))
      (wideAcc_wf xs ys (fun a ha => hxs a (by simp [ha])) (fun a ha => hys a (by simp [ha])))

/-- Sum of the polynomial products of paired field elements (proof side). -/
noncomputable def prodSum : List fieldElement → List fieldElement → Polynomial (ZMod 2)
  | x :: xs, y :: ys => toPoly (feltVal x) * toPoly (feltVal y) + prodSum xs ys
  | _, _ => 0

/-- The XOR of the dot products of paired field elements. -/
def dotZip : List fieldElement → List fieldElement → Nat
  | x :: xs, y :: ys => dot (feltVal x) (feltVal y) ^^^ dotZip xs ys
  | _, _ => 0

theorem dotZip_lt : ∀ (xs ys : List fieldElement), (∀ x ∈ xs, wfFelt x) →
    (∀ y ∈ ys, wfFelt y) → dotZip xs ys < 2 ^ 128
  | [], ys, _, _ => by simp only [dotZip]; positivity
  | _ :: _, [], _, _ => by simp only [dotZip]; positivity
  | x :: xs, y :: ys, hxs, hys => by
    simp only [dotZip]
    exact Nat.xor_lt_two_pow
      (dot_lt (feltVal_lt (hxs x (by simp))) (feltVal_lt (hys y (by simp))))
      (dotZip_lt xs ys (fun a ha => hxs a (by simp [ha])) (fun a ha => hys a (by simp [ha])))

theorem wideAcc_assemble : ∀ (xs ys : List fieldElement), (∀ x ∈ xs, wfFelt x) →
    (∀ y ∈ ys, wfFelt y) → toPoly (assembleX (wideAcc xs ys)) = prodSum xs ys
  | [], ys, _, _ => by
    simp only [wideAcc, assembleX_zero, toPoly_zero]
    cases ys <;> rfl
  | _ :: _, [], _, _ => by
    simp only [wideAcc, assembleX_zero, toPoly_zero]
    rfl
  | x :: xs, y :: ys, hxs, hys => by
    simp only [wideAcc, prodSum]
    rw [assembleX_xk, toPoly_xor, karat_toPoly (hxs x (by simp)) (hys y (by simp)),
      wideAcc_assemble xs ys (fun a ha => hxs a (by simp [ha])) (fun a ha => hys a (by simp [ha]))]

theorem dotZip_mont : ∀ (xs ys : List fieldElement), (∀ x ∈ xs, wfFelt x) →
    (∀ y ∈ ys, wfFelt y) →
    toPoly pvPoly ∣ Polynomial.X ^ 128 * toPoly (dotZip xs ys) + prodSum xs ys
  | [], ys, _, _ => by
    simp only [dotZip, prodSum, toPoly_zero]
    cases ys <;> simp [prodSum, toPoly_zero]
  | _ :: _, [], _, _ => by
    simp only [dotZip, prodSum, toPoly_zero]
    simp
  | x :: xs, y :: ys, hxs, hys => by
    simp only [dotZip, prodSum]
    have h1 := dot_mont (feltVal_lt (hxs x (by simp))) (feltVal_lt (hys y (by simp)))
    have h2 := dotZip_mont xs ys (fun a ha => hxs a (by simp [ha]))
      (fun a ha => hys a (by simp [ha]))
    have key : Polynomial.X ^ 128 *
        toPoly (dot (feltVal x) (feltVal y) ^^^ dotZip xs ys) +
          (toPoly (feltVal x) * toPoly (feltVal y) + prodSum xs ys) =
        (Polynomial.X ^ 128 * toPoly (dot (feltVal x) (feltVal y)) +
          toPoly (feltVal x) * toPoly (feltVal y)) +
          (Polynomial.X ^ 128 * toPoly (dotZip xs ys) + prodSum xs ys) := by
      rw [toPoly_xor]
      ring
    rw [key]
    exact dvd_add h1 h2

/-- The wide stride computes the XOR of the dot products of the key powers
with the (accumulator-folded) message blocks. -/
theorem wideStep_val {acc : fieldElement} {pow ys : List fieldElement}
    (hpow : ∀ x ∈ pow, wfFelt x) (hys : ∀ y ∈ ys, wfFelt y)
    (blocks : List Nat) (hstride : strideBlocks acc blocks = ys) :
    feltVal (wideStep acc pow blocks) = dotZip pow ys := by
  subst hstride
  set ys := strideBlocks acc blocks with hys'
  have hk := wideAcc_wf pow ys hpow hys
  obtain ⟨b3, b2, b1, b0⟩ := assembleX_bounds hk
  have hshape : wideStep acc pow blocks =
      gueronReduce (wideAcc pow ys).h1
        ((wideAcc pow ys).h0 ^^^ ((wideAcc pow ys).m1 ^^^ (wideAcc pow ys).l1 ^^^ (wideAcc pow ys).h1))
        ((wideAcc pow ys).l1 ^^^ ((wideAcc pow ys).m0 ^^^ (wideAcc pow ys).l0 ^^^ (wideAcc pow ys).h0))
        (wideAcc pow ys).l0 := by
    rw [wideStep, reduceLines_eq_shiftXor, gueron_eq_shiftXor b3 b2 b1 b0]
  have hmont := gueronReduce_mont b3 b2 b1 b0
  rw [← hshape] at hmont
  have hval4 : toPoly (val4 (wideAcc pow ys).h1
      ((wideAcc pow ys).h0 ^^^ ((wideAcc pow ys).m1 ^^^ (wideAcc pow ys).l1 ^^^ (wideAcc pow ys).h1))
      ((wideAcc pow ys).l1 ^^^ ((wideAcc pow ys).m0 ^^^ (wideAcc pow ys).l0 ^^^ (wideAcc pow ys).h0))
      (wideAcc pow ys).l0) = prodSum pow ys := by
    rw [show val4 (wideAcc pow ys).h1
      ((wideAcc pow ys).h0 ^^^ ((wideAcc pow ys).m1 ^^^ (wideAcc pow ys).l1 ^^^ (wideAcc pow ys).h1))
      ((wideAcc pow ys).l1 ^^^ ((wideAcc pow ys).m0 ^^^ (wideAcc pow ys).l0 ^^^ (wideAcc pow ys).h0))
      (wideAcc pow ys).l0 = assembleX (wideAcc pow ys) from rfl]
    exact wideAcc_assemble pow ys hpow hys
  rw [hval4] at hmont
  have hzip := dotZip_mont pow ys hpow hys
  have hwf : wfFelt (wideStep acc pow blocks) := by
    rw [hshape]
    exact gueronReduce_wf b3 b2 b1 b0
  apply eq_of_mont (feltVal_lt hwf) (dotZip_lt pow ys hpow hys)
  exact cong_trans2 hmont (cong_symm2 hzip)

end polyval

namespace polyval

theorem clmul_comm128 {a b : Nat} (ha : a < 2 ^ 256) (hb : b < 2 ^ 256) :
    clmul a b = clmul b a := by
  apply toPoly_inj
  rw [toPoly_clmul b ha, toPoly_clmul a hb]
  ring

theorem dot_comm {a b : Nat} (ha : a < 2 ^ 128) (hb : b < 2 ^ 128) :
    dot a b = dot b a := by
  unfold dot pmul
  rw [clmul_comm128 (lt_trans ha (by norm_num)) (lt_trans hb (by norm_num))]

theorem dot_xor_left {a b c : Nat} (ha : a < 2 ^ 128) (hb : b < 2 ^ 128)
    (hc : c < 2 ^ 128) : dot (a ^^^ b) c = dot a c ^^^ dot b c := by
  have hab : a ^^^ b < 2 ^ 128 := Nat.xor_lt_two_pow ha hb
  apply eq_of_mont (k := 128) (dot_lt hab hc)
    (Nat.xor_lt_two_pow (dot_lt ha hc) (dot_lt hb hc))
  have h1 := dot_mont hab hc
  have h2 : toPoly pvPoly ∣ (toPoly a * toPoly c + toPoly b * toPoly c) +
      Polynomial.X ^ 128 * toPoly (dot a c ^^^ dot b c) := by
    have ha' := dot_mont ha hc
    have hb' := dot_mont hb hc
    have key : (toPoly a * toPoly c + toPoly b * toPoly c) +
        Polynomial.X ^ 128 * toPoly (dot a c ^^^ dot b c) =
        (Polynomial.X ^ 128 * toPoly (dot a c) + toPoly a * toPoly c) +
          (Polynomial.X ^ 128 * toPoly (dot b c) + toPoly b * toPoly c) := by
      rw [toPoly_xor]
      ring
    rw [key]
    exact dvd_add ha' hb'
  have h1' : toPoly pvPoly ∣ Polynomial.X ^ 128 * toPoly (dot (a ^^^ b) c) +
      (toPoly a * toPoly c + toPoly b * toPoly c) := by
    have key : Polynomial.X ^ 128 * toPoly (dot (a ^^^ b) c) +
        (toPoly a * toPoly c + toPoly b * toPoly c) =
        Polynomial.X ^ 128 * toPoly (dot (a ^^^ b) c) + toPoly (a ^^^ b) * toPoly c := by
      rw [toPoly_xor]
      ring
    rw [key]
    exact h1
  exact cong_trans2 h1' h2

theorem dot_xor_right {a b c : Nat} (ha : a < 2 ^ 128) (hb : b < 2 ^ 128)
    (hc : c < 2 ^ 128) : dot c (a ^^^ b) = dot c a ^^^ dot c b := by
  rw [dot_comm hc (Nat.xor_lt_two_pow ha hb), dot_xor_left ha hb hc,
    dot_comm ha hc, dot_comm hb hc]

theorem cong_reshape {M s t : Polynomial (ZMod 2)} (h : M ∣ s) (e : s = t) : M ∣ t :=
  e ▸ h

theorem dot_assoc {a b c : Nat} (ha : a < 2 ^ 128) (hb : b < 2 ^ 128)
    (hc : c < 2 ^ 128) : dot (dot a b) c = dot a (dot b c) := by
  apply eq_of_mont (k := 256) (dot_lt (dot_lt ha hb) hc) (dot_lt ha (dot_lt hb hc))
  have hL : toPoly pvPoly ∣ Polynomial.X ^ 256 * toPoly (dot (dot a b) c) +
      toPoly a * toPoly b * toPoly c := by
    have ha1 : toPoly pvPoly ∣ Polynomial.X ^ 256 * toPoly (dot (dot a b) c) +
        Polynomial.X ^ 128 * toPoly (dot a b) * toPoly c :=
      cong_reshape (cong_mul_right2 (Polynomial.X ^ 128) (dot_mont (dot_lt ha hb) hc))
        (by ring)
    have ha2 : toPoly pvPoly ∣ Polynomial.X ^ 128 * toPoly (dot a b) * toPoly c +
        toPoly a * toPoly b * toPoly c :=
      cong_reshape (cong_mul_right2 (toPoly c) (dot_mont ha hb)) (by ring)
    exact cong_trans2 ha1 ha2
  have hR : toPoly pvPoly ∣ Polynomial.X ^ 256 * toPoly (dot a (dot b c)) +
      toPoly a * toPoly b * toPoly c := by
    have hb1 : toPoly pvPoly ∣ Polynomial.X ^ 256 * toPoly (dot a (dot b c)) +
        toPoly a * (Polynomial.X ^ 128 * toPoly (dot b c)) :=
      cong_reshape (cong_mul_right2 (Polynomial.X ^ 128) (dot_mont ha (dot_lt hb hc)))
        (by ring)
    have hb2 : toPoly pvPoly ∣ toPoly a * (Polynomial.X ^ 128 * toPoly (dot b c)) +
        toPoly a * toPoly b * toPoly c :=
      cong_reshape (cong_mul_right2 (toPoly a) (dot_mont hb hc)) (by ring)
    exact cong_trans2 hb1 hb2
  exact cong_trans2 hL (cong_symm2 hR)

end polyval

namespace polyval

/-- Powers of a hash key under the dot operation: `dotPow h n` is
h^(n+1). -/
def dotPow (h : Nat) : Nat → Nat
  | 0 => h
  | n + 1 => dot h (dotPow h n)

theorem dotPow_lt {h : Nat} (hh : h < 2 ^ 128) (n : Nat) : dotPow h n < 2 ^ 128 := by
  induction n with
  | zero => exact hh
  | succ n ih => exact dot_lt hh ih

/-- The Horner recurrence with the dot operation: one step per block,
`s := dot (s XOR y) h`. -/
def hornerDot (hk s : Nat) (ys : List Nat) : Nat :=
  ys.foldl (fun a y => dot (a ^^^ y) hk) s

theorem hornerDot_nil (hk s : Nat) : hornerDot hk s [] = s := rfl

theorem hornerDot_cons (hk s y : Nat) (ys : List Nat) :
    hornerDot hk s (y :: ys) = hornerDot hk (dot (s ^^^ y) hk) ys := rfl

theorem hornerDot_append (hk s : Nat) (l1 l2 : List Nat) :
    hornerDot hk s (l1 ++ l2) = hornerDot hk (hornerDot hk s l1) l2 :=
  List.foldl_append ..

theorem hornerDot_lt {hk s : Nat} {ys : List Nat} (hh : hk < 2 ^ 128)
    (hs : s < 2 ^ 128) (hys : ∀ y ∈ ys, y < 2 ^ 128) : hornerDot hk s ys < 2 ^ 128 := by
  induction ys generalizing s with
  | nil => exact hs
  | cons y ys ih =>
    rw [hornerDot_cons]
    exact ih (dot_lt (Nat.xor_lt_two_pow hs (hys y (by simp))) hh)
      (fun a ha => hys a (by simp [ha]))

/-- `n` blank Horner steps applied to `t`: multiplies `t` by h^n. -/
def dotIter (hk t : Nat) : Nat → Nat
  | 0 => t
  | n + 1 => dotIter hk (dot t hk) n

theorem dotIter_lt {hk t : Nat} (hh : hk < 2 ^ 128) (ht : t < 2 ^ 128) (n : Nat) :
    dotIter hk t n < 2 ^ 128 := by
  induction n generalizing t with
  | zero => exact ht
  | succ n ih => exact ih (dot_lt ht hh)

theorem dotIter_zero (hk t : Nat) : dotIter hk t 0 = t := rfl

theorem dotIter_succ (hk t n : Nat) : dotIter hk t (n + 1) = dotIter hk (dot t hk) n := rfl

theorem dotPow_zero (h : Nat) : dotPow h 0 = h := rfl

theorem dotPow_succ (h n : Nat) : dotPow h (n + 1) = dot h (dotPow h n) := rfl

theorem dotIter_pow {hk t : Nat} (hh : hk < 2 ^ 128) (ht : t < 2 ^ 128) (n : Nat) :
    dotIter hk t (n + 1) = dot t (dotPow hk n) := by
  induction n generalizing t with
  | zero => rw [dotIter_succ, dotIter_zero, dotPow_zero]
  | succ n ih =>
    rw [dotIter_succ, ih (dot_lt ht hh), dotPow_succ]
    rw [show dot t hk = dot hk t from dot_comm ht hh, dot_assoc hh ht (dotPow_lt hh n),
      show dot t (dotPow hk n) = dot (dotPow hk n) t from dot_comm ht (dotPow_lt hh n),
      ← dot_assoc hh (dotPow_lt hh n) ht,
      show dot (dot hk (dotPow hk n)) t = dot t (dot hk (dotPow hk n)) from
        dot_comm (dot_lt hh (dotPow_lt hh n)) ht]

theorem hornerDot_xor_state {hk : Nat} (hh : hk < 2 ^ 128) :
    ∀ (ys : List Nat) (s t : Nat), s < 2 ^ 128 → t < 2 ^ 128 →
      (∀ y ∈ ys, y < 2 ^ 128) →
      hornerDot hk (s ^^^ t) ys = hornerDot hk s ys ^^^ dotIter hk t ys.length
  | [], s, t, _, _, _ => by
    rw [hornerDot_nil, hornerDot_nil, List.length_nil, dotIter_zero]
  | y :: ys, s, t, hs, ht, hys => by
    rw [hornerDot_cons, hornerDot_cons]
    have hy : y < 2 ^ 128 := hys y (by simp)
    have key : s ^^^ t ^^^ y = (s ^^^ y) ^^^ t := by
      rw [Nat.xor_assoc, Nat.xor_comm t y, ← Nat.xor_assoc]
    rw [key, dot_xor_left (Nat.xor_lt_two_pow hs hy) ht hh]
    rw [hornerDot_xor_state hh ys (dot (s ^^^ y) hk) (dot t hk)
      (dot_lt (Nat.xor_lt_two_pow hs hy) hh) (dot_lt ht hh)
      (fun a ha => hys a (by simp [ha]))]
    rw [List.length_cons, dotIter_succ]

/-- The sum form of a Horner evaluation started from 0: each block times the
appropriate power of the key. -/
def dotTail (hk : Nat) : List Nat → Nat
  | [] => 0
  | y :: ys => dot y (dotPow hk ys.length) ^^^ dotTail hk ys

theorem dotTail_nil (hk : Nat) : dotTail hk [] = 0 := rfl

theorem dotTail_cons (hk y : Nat) (ys : List Nat) :
    dotTail hk (y :: ys) = dot y (dotPow hk ys.length) ^^^ dotTail hk ys := rfl

theorem dotTail_lt {hk : Nat} (hh : hk < 2 ^ 128) :
    ∀ (ys : List Nat), (∀ y ∈ ys, y < 2 ^ 128) → dotTail hk ys < 2 ^ 128
  | [], _ => by rw [dotTail_nil]; positivity
  | y :: ys, hys => by
    rw [dotTail_cons]
    exact Nat.xor_lt_two_pow (dot_lt (hys y (by simp)) (dotPow_lt hh ys.length))
      (dotTail_lt hh ys (fun a ha => hys a (by simp [ha])))

theorem hornerDot_zero_eq_dotTail {hk : Nat} (hh : hk < 2 ^ 128) :
    ∀ (ys : List Nat), (∀ y ∈ ys, y < 2 ^ 128) →
      hornerDot hk 0 ys = dotTail hk ys
  | [], _ => by rw [hornerDot_nil, dotTail_nil]
  | y :: ys, hys => by
    have hy : y < 2 ^ 128 := hys y (by simp)
    have hys' : ∀ a ∈ ys, a < 2 ^ 128 := fun a ha => hys a (by simp [ha])
    rw [hornerDot_cons, Nat.zero_xor, dotTail_cons]
    rw [show dot y hk = 0 ^^^ dot y hk from (Nat.zero_xor _).symm]
    rw [hornerDot_xor_state hh ys 0 (dot y hk) (by positivity) (dot_lt hy hh) hys',
      hornerDot_zero_eq_dotTail hh ys hys']
    cases ys with
    | nil =>
      rw [List.length_nil, dotIter_zero, dotTail_nil, dotPow_zero, Nat.zero_xor,
        Nat.xor_zero]
    | cons z zs =>
      rw [List.length_cons, ← dotIter_succ hk y (zs.length + 1),
        dotIter_pow hh hy (zs.length + 1), Nat.xor_comm]

end polyval

namespace polyval

theorem foldr_le_bound : ∀ (bs : List Nat), (∀ b ∈ bs, b < 256) →
    bs.foldr (fun b acc => b + 256 * acc) 0 < 256 ^ bs.length
  | [], _ => by simp
  | b :: bs, h => by
    have hb : b < 256 := h b (by simp)
    have ih := foldr_le_bound bs (fun a ha => h a (by simp [ha]))
    simp only [List.foldr_cons, List.length_cons]
    have : (256 : Nat) ^ (bs.length + 1) = 256 * 256 ^ bs.length := by
      rw [Nat.pow_succ, Nat.mul_comm]
    omega

theorem le64_lt {bs : List Nat} (h : ∀ b ∈ bs, b < 256) : le64 bs < 2 ^ 64 := by
  have hsub : ∀ b ∈ bs.take 8, b < 256 := fun b hb => h b (List.take_subset 8 bs hb)
  have h1 := foldr_le_bound (bs.take 8) hsub
  have h2 : (256 : Nat) ^ (bs.take 8).length ≤ 256 ^ 8 := by
    apply Nat.pow_le_pow_right (by omega)
    simpa using List.length_take_le 8 bs
  have h3 : (256 : Nat) ^ 8 = 2 ^ 64 := by norm_num
  unfold le64
  omega

theorem setBytes_wf {bs : List Nat} (h : ∀ b ∈ bs, b < 256) : wfFelt (setBytes bs) :=
  ⟨le64_lt h, le64_lt (fun b hb => h b (List.drop_subset 8 bs hb))⟩

theorem singleStep_val {acc key : fieldElement} {blocks : List Nat} (hacc : wfFelt acc)
    (hkey : wfFelt key) (hb : ∀ b ∈ blocks, b < 256) :
    feltVal (singleStep acc key blocks) =
      dot (feltVal acc ^^^ feltVal (setBytes blocks)) (feltVal key) := by
  have hsb := setBytes_wf hb
  have hshape : (⟨acc.lo ^^^ le64 blocks, acc.hi ^^^ le64 (blocks.drop 8)⟩ : fieldElement) =
      ⟨acc.lo ^^^ (setBytes blocks).lo, acc.hi ^^^ (setBytes blocks).hi⟩ := rfl
  have hwf : wfFelt (⟨acc.lo ^^^ le64 blocks, acc.hi ^^^ le64 (blocks.drop 8)⟩ : fieldElement) :=
    ⟨Nat.xor_lt_two_pow hacc.1 hsb.1, Nat.xor_lt_two_pow hacc.2 hsb.2⟩
  rw [singleStep, polymulGeneric_dot hwf hkey, hshape, feltVal_xor hacc hsb]

theorem singleStep_wf {acc key : fieldElement} {blocks : List Nat} (hacc : wfFelt acc)
    (hkey : wfFelt key) (hb : ∀ b ∈ blocks, b < 256) :
    wfFelt (singleStep acc key blocks) := by
  have hsb := setBytes_wf hb
  exact polymulGeneric_wf
    ⟨Nat.xor_lt_two_pow hacc.1 hsb.1, Nat.xor_lt_two_pow hacc.2 hsb.2⟩ hkey

theorem powChain_zero (h : fieldElement) : powChain h 0 = h := rfl

theorem powChain_succ (h : fieldElement) (n : Nat) :
    powChain h (n + 1) = polymulGeneric h (powChain h n) := rfl

theorem powChain_wf {h : fieldElement} (hw : wfFelt h) (n : Nat) :
    wfFelt (powChain h n) := by
  induction n with
  | zero => exact hw
  | succ n ih => exact polymulGeneric_wf hw ih

theorem powChain_val {h : fieldElement} (hw : wfFelt h) (n : Nat) :
    feltVal (powChain h n) = dotPow (feltVal h) n := by
  induction n with
  | zero => rw [powChain_zero, dotPow_zero]
  | succ n ih =>
    rw [powChain_succ, polymulGeneric_dot hw (powChain_wf hw n), ih, dotPow_succ]

/-- A byte stream parsed into `n` consecutive 16-byte little-endian
blocks. -/
def parseBlocksN : Nat → List Nat → List fieldElement
  | 0, _ => []
  | n + 1, bs => setBytes bs :: parseBlocksN n (bs.drop 16)

/-- A block-aligned byte stream parsed into its 16-byte little-endian
blocks X_1 .. X_n. -/
def parseBlocks (bs : List Nat) : List fieldElement := parseBlocksN (bs.length / 16) bs

theorem parseBlocksN_zero (bs : List Nat) : parseBlocksN 0 bs = [] := rfl

theorem parseBlocksN_succ (n : Nat) (bs : List Nat) :
    parseBlocksN (n + 1) bs = setBytes bs :: parseBlocksN n (bs.drop 16) := rfl

theorem parseBlocks_nil : parseBlocks [] = [] := rfl

theorem parseBlocks_cons {bs : List Nat} (h16 : 16 ≤ bs.length) :
    parseBlocks bs = setBytes bs :: parseBlocks (bs.drop 16) := by
  have hq : bs.length / 16 = (bs.length - 16) / 16 + 1 := by omega
  rw [parseBlocks, hq, parseBlocksN_succ, parseBlocks, List.length_drop]

theorem parseBlocksN_wf : ∀ (n : Nat) (bs : List Nat), (∀ b ∈ bs, b < 256) →
    ∀ v ∈ parseBlocksN n bs, wfFelt v
  | 0, _, _, _, hv => by simp [parseBlocksN_zero] at hv
  | n + 1, bs, hb, v, hv => by
    rw [parseBlocksN_succ] at hv
    rcases List.mem_cons.mp hv with rfl | hv'
    · exact setBytes_wf hb
    · exact parseBlocksN_wf n (bs.drop 16) (fun b hbb => hb b (List.drop_subset 16 bs hbb)) v hv'

theorem parseBlocks_wf {bs : List Nat} (hb : ∀ b ∈ bs, b < 256) :
    ∀ v ∈ parseBlocks bs, wfFelt v :=
  parseBlocksN_wf (bs.length / 16) bs hb

end polyval

namespace polyval

theorem dotZip_cons (x y : fieldElement) (xs ys : List fieldElement) :
    dotZip (x :: xs) (y :: ys) = dot (feltVal x) (feltVal y) ^^^ dotZip xs ys := rfl

theorem dotZip_nil_right (xs : List fieldElement) : dotZip xs [] = 0 := by
  cases xs <;> rfl

theorem dotZip_nil_left (ys : List fieldElement) : dotZip [] ys = 0 := by
  cases ys <;> rfl

theorem list_len8 {α : Type} {l : List α} (h : l.length = 8) :
    ∃ a b c d e f g h8, l = [a, b, c, d, e, f, g, h8] := by
  rcases l with _ | ⟨a, _ | ⟨b, _ | ⟨c, _ | ⟨d, _ | ⟨e, _ | ⟨f, _ | ⟨g, _ | ⟨h8, _ | ⟨i, t⟩⟩⟩⟩⟩⟩⟩⟩⟩ <;>
    first
      | exact ⟨_, _, _, _, _, _, _, _, rfl⟩
      | simp_all

theorem strideBlocks_eq (acc : fieldElement) (blocks : List Nat) :
    strideBlocks acc blocks =
      [⟨(setBytes blocks).lo ^^^ acc.lo, (setBytes blocks).hi ^^^ acc.hi⟩,
       setBytes (blocks.drop 16), setBytes (blocks.drop 32), setBytes (blocks.drop 48),
       setBytes (blocks.drop 64), setBytes (blocks.drop 80), setBytes (blocks.drop 96),
       setBytes (blocks.drop 112)] := rfl

end polyval

namespace polyval

theorem wideStep_horner {acc : fieldElement} {pow : List fieldElement} {blocks : List Nat}
    (hacc : wfFelt acc) (hpw : ∀ x ∈ pow, wfFelt x) (hlen : pow.length = 8)
    (hpows : ∀ i, i < 8 → feltVal (pow.getD i ⟨0, 0⟩) =
      dotPow (feltVal (pow.getD 7 ⟨0, 0⟩)) (7 - i))
    (hbytes : ∀ b ∈ blocks, b < 256) :
    feltVal (wideStep acc pow blocks) =
      hornerDot (feltVal (pow.getD 7 ⟨0, 0⟩)) (feltVal acc)
        [feltVal (setBytes blocks), feltVal (setBytes (blocks.drop 16)),
         feltVal (setBytes (blocks.drop 32)), feltVal (setBytes (blocks.drop 48)),
         feltVal (setBytes (blocks.drop 64)), feltVal (setBytes (blocks.drop 80)),
         feltVal (setBytes (blocks.drop 96)), feltVal (setBytes (blocks.drop 112))] := by
  obtain ⟨p0, p1, p2, p3, p4, p5, p6, p7, rfl⟩ := list_len8 hlen
  have w0 : wfFelt p0 := hpw p0 (by simp)
  have w7 : wfFelt p7 := hpw p7 (by simp)
  have HB : feltVal p7 < 2 ^ 128 := feltVal_lt w7
  have hp0 : feltVal p0 = dotPow (feltVal p7) 7 := by simpa using hpows 0 (by omega)
  have hp1 : feltVal p1 = dotPow (feltVal p7) 6 := by simpa using hpows 1 (by omega)
  have hp2 : feltVal p2 = dotPow (feltVal p7) 5 := by simpa using hpows 2 (by omega)
  have hp3 : feltVal p3 = dotPow (feltVal p7) 4 := by simpa using hpows 3 (by omega)
  have hp4 : feltVal p4 = dotPow (feltVal p7) 3 := by simpa using hpows 4 (by omega)
  have hp5 : feltVal p5 = dotPow (feltVal p7) 2 := by simpa using hpows 5 (by omega)
  have hp6 : feltVal p6 = dotPow (feltVal p7) 1 := by simpa using hpows 6 (by omega)
  have hb16 : ∀ k : Nat, ∀ b ∈ blocks.drop k, b < 256 :=
    fun k b hb => hbytes b (List.drop_subset k blocks hb)
  have hv0 : feltVal (setBytes blocks) < 2 ^ 128 := feltVal_lt (setBytes_wf hbytes)
  have hv1 := feltVal_lt (setBytes_wf (hb16 16))
  have hv2 := feltVal_lt (setBytes_wf (hb16 32))
  have hv3 := feltVal_lt (setBytes_wf (hb16 48))
  have hv4 := feltVal_lt (setBytes_wf (hb16 64))
  have hv5 := feltVal_lt (setBytes_wf (hb16 80))
  have hv6 := feltVal_lt (setBytes_wf (hb16 96))
  have hv7 := feltVal_lt (setBytes_wf (hb16 112))
  have haccv : feltVal acc < 2 ^ 128 := feltVal_lt hacc
  have hstr : ∀ y ∈ strideBlocks acc blocks, wfFelt y := by
    rw [strideBlocks_eq]
    intro y hy
    simp only [List.mem_cons, List.not_mem_nil, or_false] at hy
    have hsb := setBytes_wf hbytes
    rcases hy with rfl | rfl | rfl | rfl | rfl | rfl | rfl | rfl
    · exact ⟨Nat.xor_lt_two_pow hsb.1 hacc.1, Nat.xor_lt_two_pow hsb.2 hacc.2⟩
    · exact setBytes_wf (hb16 16)
    · exact setBytes_wf (hb16 32)
    · exact setBytes_wf (hb16 48)
    · exact setBytes_wf (hb16 64)
    · exact setBytes_wf (hb16 80)
    · exact setBytes_wf (hb16 96)
    · exact setBytes_wf (hb16 112)
  rw [wideStep_val hpw hstr blocks rfl]
  rw [strideBlocks_eq]
  simp only [dotZip_cons, dotZip_nil_right]
  rw [feltVal_xor (setBytes_wf hbytes) hacc]
  simp only [List.getD_cons_zero, List.getD_cons_succ]
  rw [hp0, hp1, hp2, hp3, hp4, hp5, hp6]
  rw [dot_xor_right hv0 haccv (dotPow_lt HB 7)]
  have hvsb : ∀ y ∈ [feltVal (setBytes blocks), feltVal (setBytes (blocks.drop 16)),
      feltVal (setBytes (blocks.drop 32)), feltVal (setBytes (blocks.drop 48)),
      feltVal (setBytes (blocks.drop 64)), feltVal (setBytes (blocks.drop 80)),
      feltVal (setBytes (blocks.drop 96)), feltVal (setBytes (blocks.drop 112))],
      y < 2 ^ 128 := by
    intro y hy
    simp only [List.mem_cons, List.not_mem_nil, or_false] at hy
    rcases hy with rfl | rfl | rfl | rfl | rfl | rfl | rfl | rfl <;> assumption
  rw [show feltVal acc = 0 ^^^ feltVal acc from (Nat.zero_xor _).symm,
    hornerDot_xor_state HB _ 0 (feltVal acc) (by positivity) haccv hvsb,
    hornerDot_zero_eq_dotTail HB _ hvsb]
  have hlen8 : ([feltVal (setBytes blocks), feltVal (setBytes (blocks.drop 16)),
      feltVal (setBytes (blocks.drop 32)), feltVal (setBytes (blocks.drop 48)),
      feltVal (setBytes (blocks.drop 64)), feltVal (setBytes (blocks.drop 80)),
      feltVal (setBytes (blocks.drop 96)), feltVal (setBytes (blocks.drop 112))] :
        List Nat).length = 7 + 1 := rfl
  rw [hlen8, dotIter_pow HB haccv 7]
  simp only [dotTail_cons, dotTail_nil, List.length_cons, List.length_nil]
  norm_num
  rw [dotPow_zero]
  rw [dot_comm (dotPow_lt HB 7) hv0, dot_comm (dotPow_lt HB 7) haccv,
    dot_comm (dotPow_lt HB 6) hv1, dot_comm (dotPow_lt HB 5) hv2,
    dot_comm (dotPow_lt HB 4) hv3, dot_comm (dotPow_lt HB 3) hv4,
    dot_comm (dotPow_lt HB 2) hv5, dot_comm (dotPow_lt HB 1) hv6,
    dot_comm HB hv7]
  simp [Nat.xor_assoc, Nat.xor_comm, xor_left_comm]

end polyval

namespace polyval

theorem pow_getD7_wf {pow : List fieldElement} (hlen : pow.length = 8)
    (hpw : ∀ x ∈ pow, wfFelt x) : wfFelt (pow.getD 7 ⟨0, 0⟩) := by
  obtain ⟨p0, p1, p2, p3, p4, p5, p6, p7, rfl⟩ := list_len8 hlen
  simp only [List.getD_cons_zero, List.getD_cons_succ]
  exact hpw p7 (by simp)

theorem wideStep_wf {acc : fieldElement} {pow : List fieldElement} {blocks : List Nat}
    (hpw : ∀ x ∈ pow, wfFelt x)
    (hstr : ∀ y ∈ strideBlocks acc blocks, wfFelt y) :
    wfFelt (wideStep acc pow blocks) := by
  have hk := wideAcc_wf pow (strideBlocks acc blocks) hpw hstr
  obtain ⟨b3, b2, b1, b0⟩ := assembleX_bounds hk
  rw [wideStep, reduceLines_eq_shiftXor, ← gueron_eq_shiftXor b3 b2 b1 b0]
  exact gueronReduce_wf b3 b2 b1 b0

theorem strideBlocks_wf {acc : fieldElement} {blocks : List Nat} (hacc : wfFelt acc)
    (hbytes : ∀ b ∈ blocks, b < 256) :
    ∀ y ∈ strideBlocks acc blocks, wfFelt y := by
  have hb16 : ∀ k : Nat, ∀ b ∈ blocks.drop k, b < 256 :=
    fun k b hb => hbytes b (List.drop_subset k blocks hb)
  rw [strideBlocks_eq]
  intro y hy
  simp only [List.mem_cons, List.not_mem_nil, or_false] at hy
  have hsb := setBytes_wf hbytes
  rcases hy with rfl | rfl | rfl | rfl | rfl | rfl | rfl | rfl
  · exact ⟨Nat.xor_lt_two_pow hsb.1 hacc.1, Nat.xor_lt_two_pow hsb.2 hacc.2⟩
  · exact setBytes_wf (hb16 16)
  · exact setBytes_wf (hb16 32)
  · exact setBytes_wf (hb16 48)
  · exact setBytes_wf (hb16 64)
  · exact setBytes_wf (hb16 80)
  · exact setBytes_wf (hb16 96)
  · exact setBytes_wf (hb16 112)

theorem parseBlocks_split128 {bs : List Nat} (h : 128 ≤ bs.length) :
    parseBlocks bs = setBytes bs :: setBytes (bs.drop 16) :: setBytes (bs.drop 32) ::
      setBytes (bs.drop 48) :: setBytes (bs.drop 64) :: setBytes (bs.drop 80) ::
      setBytes (bs.drop 96) :: setBytes (bs.drop 112) :: parseBlocks (bs.drop 128) := by
  rw [parseBlocks_cons (by omega)]
  rw [parseBlocks_cons (by simp only [List.length_drop]; omega)]
  rw [parseBlocks_cons (by simp only [List.length_drop]; omega)]
  rw [parseBlocks_cons (by simp only [List.length_drop]; omega)]
  rw [parseBlocks_cons (by simp only [List.length_drop]; omega)]
  rw [parseBlocks_cons (by simp only [List.length_drop]; omega)]
  rw [parseBlocks_cons (by simp only [List.length_drop]; omega)]
  rw [parseBlocks_cons (by simp only [List.length_drop]; omega)]
  simp only [List.drop_drop]

end polyval

namespace polyval

/-- The generic block engine implements the Horner recurrence with the dot
operation: starting from any accumulator, with a correctly-populated power
table, processing a block-aligned byte stream leaves the accumulator at the
Horner evaluation of the parsed blocks. -/
theorem engineF_horner : ∀ (fuel : Nat) (acc : fieldElement) (pow : List fieldElement)
    (blocks : List Nat), blocks.length ≤ fuel → blocks.length % 16 = 0 → wfFelt acc →
    pow.length = 8 → (∀ x ∈ pow, wfFelt x) →
    (∀ i, i < 8 → feltVal (pow.getD i ⟨0, 0⟩) = dotPow (feltVal (pow.getD 7 ⟨0, 0⟩)) (7 - i)) →
    (∀ b ∈ blocks, b < 256) →
    feltVal (polymulBlocksGenericF fuel acc pow blocks) =
      hornerDot (feltVal (pow.getD 7 ⟨0, 0⟩)) (feltVal acc) ((parseBlocks blocks).map feltVal)
  | 0, acc, pow, blocks, hf, _, _, _, _, _, _ => by
    have hnil : blocks = [] := List.eq_nil_of_length_eq_zero (by omega)
    subst hnil
    rw [parseBlocks_nil, List.map_nil, hornerDot_nil]
    rfl
  | fuel + 1, acc, pow, blocks, hf, hm, hacc, hlen, hpw, hpows, hbytes => by
    have w7 : wfFelt (pow.getD 7 ⟨0, 0⟩) := pow_getD7_wf hlen hpw
    simp only [polymulBlocksGenericF]
    by_cases hc1 : (blocks.length / 16) % 8 ≠ 0
    · rw [if_pos hc1]
      have h16 : 16 ≤ blocks.length := by omega
      have hdl : (blocks.drop 16).length = blocks.length - 16 := List.length_drop ..
      have hrec := engineF_horner fuel (singleStep acc (pow.getD 7 ⟨0, 0⟩) blocks) pow
        (blocks.drop 16) (by omega) (by omega)
        (singleStep_wf hacc w7 hbytes) hlen hpw hpows
        (fun b hb => hbytes b (List.drop_subset 16 blocks hb))
      rw [hrec, parseBlocks_cons h16, List.map_cons, hornerDot_cons,
        singleStep_val hacc w7 hbytes]
    · rw [if_neg hc1]
      push_neg at hc1
      by_cases hc2 : 16 * 8 ≤ blocks.length
      · rw [if_pos hc2]
        have h128 : 128 ≤ blocks.length := by omega
        have hstr := strideBlocks_wf hacc hbytes
        have hwide := wideStep_wf hpw hstr
        have hdl : (blocks.drop 128).length = blocks.length - 128 := List.length_drop ..
        have hrec := engineF_horner fuel (wideStep acc pow blocks) pow (blocks.drop 128)
          (by omega) (by omega) hwide hlen hpw hpows
          (fun b hb => hbytes b (List.drop_subset 128 blocks hb))
        rw [hrec, parseBlocks_split128 h128]
        simp only [List.map_cons]
        rw [show feltVal (setBytes blocks) :: feltVal (setBytes (blocks.drop 16)) ::
            feltVal (setBytes (blocks.drop 32)) :: feltVal (setBytes (blocks.drop 48)) ::
            feltVal (setBytes (blocks.drop 64)) :: feltVal (setBytes (blocks.drop 80)) ::
            feltVal (setBytes (blocks.drop 96)) :: feltVal (setBytes (blocks.drop 112)) ::
            (parseBlocks (blocks.drop 128)).map feltVal =
          [feltVal (setBytes blocks), feltVal (setBytes (blocks.drop 16)),
           feltVal (setBytes (blocks.drop 32)), feltVal (setBytes (blocks.drop 48)),
           feltVal (setBytes (blocks.drop 64)), feltVal (setBytes (blocks.drop 80)),
           feltVal (setBytes (blocks.drop 96)), feltVal (setBytes (blocks.drop 112))] ++
            (parseBlocks (blocks.drop 128)).map feltVal from rfl]
        rw [hornerDot_append, wideStep_horner hacc hpw hlen hpows hbytes]
      · rw [if_neg hc2]
        have hz : blocks.length = 0 := by omega
        have hnil : blocks = [] := List.eq_nil_of_length_eq_zero hz
        subst hnil
        rw [parseBlocks_nil, List.map_nil, hornerDot_nil]

end polyval

namespace polyval

/-- Claim C6: for every 256-bit Karatsuba product X = (X3, X2, X1, X0) in
64-bit words, Gueron's Montgomery reduction (two carry-less multiplications
by 0xC200000000000000, as in the hardware backend's reduce step) and the
Shift-XOR reflected reduction (as implemented in polymulGeneric) produce
bit-for-bit identical 128-bit results. -/
theorem claim_C6 (x3 x2 x1 x0 : Nat) (h3 : x3 < 2 ^ 64) (h2 : x2 < 2 ^ 64)
    (h1 : x1 < 2 ^ 64) (h0 : x0 < 2 ^ 64) :
    gueronReduce x3 x2 x1 x0 = shiftXorReduce x3 x2 x1 x0 :=
  gueron_eq_shiftXor h3 h2 h1 h0

theorem claim_C6_witness :
    gueronReduce 0x1234567890abcdef 0xfedcba0987654321 0xdeadbeefcafebabe
        0x0123456789abcdef =
      shiftXorReduce 0x1234567890abcdef 0xfedcba0987654321 0xdeadbeefcafebabe
        0x0123456789abcdef :=
  claim_C6 0x1234567890abcdef 0xfedcba0987654321 0xdeadbeefcafebabe 0x0123456789abcdef
    (by decide) (by decide) (by decide) (by decide)

/-- Claim C1 (code bug): `New` is specified to reject exactly the wrong-length
keys and the all-zero key, but the code computes the XOR of the key bytes and
rejects any key whose bytes XOR to zero: the 16-byte key 01 01 00 .. 00 is not
all zero yet `New` returns the zero-key error. -/
theorem claim_C1 :
    ([1, 1, 0, 0, 0, 0, 0, 0, 0, 0, 0, 0, 0, 0, 0, 0] : List Nat).length = 16 ∧
      (1 : Nat) ∈ ([1, 1, 0, 0, 0, 0, 0, 0, 0, 0, 0, 0, 0, 0, 0, 0] : List Nat) ∧
      New [1, 1, 0, 0, 0, 0, 0, 0, 0, 0, 0, 0, 0, 0, 0, 0] =
        .error KeyErr.invalidKey := by
  refine ⟨rfl, by decide, ?_⟩
  rfl

/-- A sample streaming context used for concrete evaluations. -/
def sampleCtx : Polyval := ⟨⟨1, 0⟩, ⟨2, 3⟩, List.replicate 8 ⟨4, 5⟩⟩

/-- Claim C3 (code bug): the empty input has length a multiple of 16 and is
specified to be a no-op that never dereferences the input, and the generic
path indeed treats it as a no-op; but on the arm64 build with `haveAsm`
the dispatcher evaluates `&blocks[0]`, which panics on an empty slice. -/
theorem claim_C3 :
    ([] : List Nat).length % 16 = 0 ∧
      UpdateArm64 true sampleCtx [] = none ∧
      UpdateArm64 false sampleCtx [] = some sampleCtx ∧
      Update sampleCtx [] = some sampleCtx := by
  refine ⟨rfl, rfl, ?_, ?_⟩ <;> rfl

end polyval

namespace polyval

/-- Two well-formed field elements with the same 128-bit value are equal. -/
theorem feltVal_inj {a b : fieldElement} (ha : wfFelt a) (hb : wfFelt b)
    (h : feltVal a = feltVal b) : a = b := by
  obtain ⟨a0, a1⟩ := a
  obtain ⟨b0, b1⟩ := b
  have ha1 : a0 < 2 ^ 64 := ha.1
  have hb1 : b0 < 2 ^ 64 := hb.1
  have hv : 2 ^ 64 * a1 + a0 = 2 ^ 64 * b1 + b0 := h
  simp only [fieldElement.mk.injEq]
  omega

/-- The pure single-block reference step of claim C4 (stated from the spec's
words, for comparison with the engine): acc := fmul(acc XOR X, key). -/
def pureStep (key acc x : fieldElement) : fieldElement :=
  polymulGeneric ⟨acc.lo ^^^ x.lo, acc.hi ^^^ x.hi⟩ key

/-- The pure single-block reference sweep of claim C4: apply `pureStep` to
each block in input order. -/
def pureSweep (key acc : fieldElement) (xs : List fieldElement) : fieldElement :=
  xs.foldl (pureStep key) acc

theorem pureSweep_nil (key acc : fieldElement) : pureSweep key acc [] = acc := rfl

theorem pureSweep_cons (key acc x : fieldElement) (xs : List fieldElement) :
    pureSweep key acc (x :: xs) = pureSweep key (pureStep key acc x) xs := rfl

theorem pureStep_wf {key acc x : fieldElement} (hk : wfFelt key) (hacc : wfFelt acc)
    (hx : wfFelt x) : wfFelt (pureStep key acc x) :=
  polymulGeneric_wf ⟨Nat.xor_lt_two_pow hacc.1 hx.1, Nat.xor_lt_two_pow hacc.2 hx.2⟩ hk

theorem pureStep_val {key acc x : fieldElement} (hk : wfFelt key) (hacc : wfFelt acc)
    (hx : wfFelt x) :
    feltVal (pureStep key acc x) = dot (feltVal acc ^^^ feltVal x) (feltVal key) := by
  rw [pureStep, polymulGeneric_dot ⟨Nat.xor_lt_two_pow hacc.1 hx.1,
    Nat.xor_lt_two_pow hacc.2 hx.2⟩ hk, feltVal_xor hacc hx]

theorem pureSweep_wf {key : fieldElement} (hk : wfFelt key) :
    ∀ (xs : List fieldElement) (acc : fieldElement), wfFelt acc →
      (∀ x ∈ xs, wfFelt x) → wfFelt (pureSweep key acc xs)
  | [], _, hacc, _ => hacc
  | x :: xs, acc, hacc, hxs => by
    rw [pureSweep_cons]
    exact pureSweep_wf hk xs _ (pureStep_wf hk hacc (hxs x (by simp)))
      (fun a ha => hxs a (by simp [ha]))

theorem pureSweep_val {key : fieldElement} (hk : wfFelt key) :
    ∀ (xs : List fieldElement) (acc : fieldElement), wfFelt acc →
      (∀ x ∈ xs, wfFelt x) →
      feltVal (pureSweep key acc xs) =
        hornerDot (feltVal key) (feltVal acc) (xs.map feltVal)
  | [], acc, _, _ => by rw [pureSweep_nil, List.map_nil, hornerDot_nil]
  | x :: xs, acc, hacc, hxs => by
    have hx : wfFelt x := hxs x (by simp)
    rw [pureSweep_cons, List.map_cons, hornerDot_cons,
      pureSweep_val hk xs _ (pureStep_wf hk hacc hx) (fun a ha => hxs a (by simp [ha])),
      pureStep_val hk hacc hx]

/-- The block engine only produces well-formed accumulators. -/
theorem engineF_wf : ∀ (fuel : Nat) (acc : fieldElement) (pow : List fieldElement)
    (blocks : List Nat), wfFelt acc → pow.length = 8 → (∀ x ∈ pow, wfFelt x) →
    (∀ b ∈ blocks, b < 256) → wfFelt (polymulBlocksGenericF fuel acc pow blocks)
  | 0, _, _, _, hacc, _, _, _ => hacc
  | fuel + 1, acc, pow, blocks, hacc, hlen, hpw, hbytes => by
    simp only [polymulBlocksGenericF]
    by_cases hc1 : (blocks.length / 16) % 8 ≠ 0
    · rw [if_pos hc1]
      exact engineF_wf fuel _ pow _ (singleStep_wf hacc (pow_getD7_wf hlen hpw) hbytes)
        hlen hpw (fun b hb => hbytes b (List.drop_subset 16 blocks hb))
    · rw [if_neg hc1]
      by_cases hc2 : 16 * 8 ≤ blocks.length
      · rw [if_pos hc2]
        exact engineF_wf fuel _ pow _ (wideStep_wf hpw (strideBlocks_wf hacc hbytes))
          hlen hpw (fun b hb => hbytes b (List.drop_subset 128 blocks hb))
      · rw [if_neg hc2]
        exact hacc

end polyval

namespace polyval

/-- Claim C4: for every starting accumulator, every power table with
pow[i] = pow[7]^(8−i) (powers taken with the code's field multiply), and
every block-aligned byte stream, the engine's combined single-tail plus
8-block wide-stride path leaves the accumulator exactly where the pure
single-block sweep acc := fmul(acc XOR X_i, pow[7]) leaves it, applied to
the parsed blocks in input order. -/
theorem claim_C4 (acc : fieldElement) (pow : List fieldElement) (blocks : List Nat)
    (hacc : wfFelt acc) (hlen : pow.length = 8) (hk : wfFelt (pow.getD 7 ⟨0, 0⟩))
    (hpows : ∀ i, i < 8 → pow.getD i ⟨0, 0⟩ = powChain (pow.getD 7 ⟨0, 0⟩) (7 - i))
    (hmod : blocks.length % 16 = 0) (hbytes : ∀ b ∈ blocks, b < 256) :
    polymulBlocksGeneric acc pow blocks =
      pureSweep (pow.getD 7 ⟨0, 0⟩) acc (parseBlocks blocks) := by
  have hpw : ∀ x ∈ pow, wfFelt x := by
    intro x hx
    obtain ⟨i, hi, rfl⟩ := List.mem_iff_getElem.mp hx
    rw [← List.getD_eq_getElem pow ⟨0, 0⟩ hi, hpows i (by omega)]
    exact powChain_wf hk _
  have hpowsVal : ∀ i, i < 8 → feltVal (pow.getD i ⟨0, 0⟩) =
      dotPow (feltVal (pow.getD 7 ⟨0, 0⟩)) (7 - i) := by
    intro i hi
    rw [hpows i hi, powChain_val hk]
  have h1 := engineF_horner blocks.length acc pow blocks le_rfl hmod hacc hlen hpw
    hpowsVal hbytes
  have h2 := pureSweep_val hk (parseBlocks blocks) acc hacc (parseBlocks_wf hbytes)
  unfold polymulBlocksGeneric
  exact feltVal_inj (engineF_wf blocks.length acc pow blocks hacc hlen hpw hbytes)
    (pureSweep_wf hk (parseBlocks blocks) acc hacc (parseBlocks_wf hbytes))
    (h1.trans h2.symm)

theorem claim_C4_witness :
    polymulBlocksGeneric ⟨1, 2⟩ (List.replicate 8 ⟨0, 0⟩) [] =
      pureSweep ((List.replicate 8 (⟨0, 0⟩ : fieldElement)).getD 7 ⟨0, 0⟩) ⟨1, 2⟩
        (parseBlocks []) :=
  claim_C4 ⟨1, 2⟩ (List.replicate 8 ⟨0, 0⟩) [] (by decide) (by decide) (by decide)
    (by decide) (by decide) (by decide)

end polyval

namespace polyval

/-- One reduction step on 0 is 0. -/
theorem redStep_zero (i : Nat) : redStep pvPoly i 0 = 0 := by
  simp [redStep, Nat.zero_testBit]

theorem redAux_zero : ∀ i, redAux pvPoly i 0 = 0
  | 0 => rfl
  | i + 1 => by
    show redAux pvPoly i (redStep pvPoly i 0) = 0
    rw [redStep_zero, redAux_zero i]

theorem polymod_zero : polymod 0 = 0 := redAux_zero 128

theorem pmul_zero_left (x : Nat) : pmul 0 x = 0 := by
  show polymod (clmul 0 x) = 0
  rw [show clmul 0 x = 0 from rfl, polymod_zero]

theorem dot_zero_zero : dot 0 0 = 0 := by
  show pmul (pmul 0 0) XINV = 0
  rw [pmul_zero_left, pmul_zero_left]

theorem dotPow_zero_left : ∀ n, dotPow 0 n = 0
  | 0 => rfl
  | n + 1 => by rw [dotPow_succ, dotPow_zero_left n, dot_zero_zero]

end polyval

namespace polyval

/-- Plain powers h^n in GF(2^128) modulo x^128 + x^127 + x^126 + x^121 + 1,
as the original wording of claim C2 reads (stated from the spec's words, for
comparison with the code's Montgomery-twisted multiply). -/
def pmulPow (h : Nat) : Nat → Nat
  | 0 => 1
  | n + 1 => pmul h (pmulPow h n)

theorem pmulPow_succ (h n : Nat) : pmulPow h (n + 1) = pmul h (pmulPow h n) := rfl

theorem pmul_one_one : pmul 1 1 = 1 := by decide

theorem pmulPow_one : ∀ n, pmulPow 1 n = 1
  | 0 => rfl
  | n + 1 => by rw [pmulPow_succ, pmulPow_one n, pmul_one_one]

/-- The Horner recurrence S_i = (S_{i-1} XOR X_i) · H with plain GF(2^128)
multiplication, as the original wording of claim C2 reads (stated from the
spec's words, for comparison with the code). -/
def hornerPmul (hk s : Nat) (ys : List Nat) : Nat :=
  ys.foldl (fun a y => pmul (a ^^^ y) hk) s

/-- Claim C2 counterexample: a context whose power table consists of the
plain GF(2^128) powers of H = 1 (pow[i] = H^(8−i) = 1 for every i), zero
starting state, and the single block X_1 = 1.  The plain-multiplication
recurrence of the claim gives S_1 = (0 XOR 1) · 1 = 1, but Update leaves
the state at x^(−128) = 0x92040000000000000000000000000001 ≠ 1: the
implementation's multiply is the Montgomery-twisted dot operation
a·b·x^(−128), not plain multiplication in GF(2^128). -/
theorem claim_C2_counterexample :
    (∀ i, i < 8 → feltVal ((List.replicate 8 (⟨1, 0⟩ : fieldElement)).getD i ⟨0, 0⟩) =
        pmulPow 1 (8 - i)) ∧
    ([1, 0, 0, 0, 0, 0, 0, 0, 0, 0, 0, 0, 0, 0, 0, 0] : List Nat).length % 16 = 0 ∧
    Update ⟨⟨1, 0⟩, ⟨0, 0⟩, List.replicate 8 ⟨1, 0⟩⟩
        [1, 0, 0, 0, 0, 0, 0, 0, 0, 0, 0, 0, 0, 0, 0, 0] =
      some ⟨⟨1, 0⟩, ⟨1, 0x9204000000000000⟩, List.replicate 8 ⟨1, 0⟩⟩ ∧
    hornerPmul 1 0 [1] = 1 ∧
    feltVal ⟨1, 0x9204000000000000⟩ ≠ 1 := by
  refine ⟨?_, by decide, ?_, ?_, by decide⟩
  · intro i hi
    rw [pmulPow_one]
    interval_cases i <;> rfl
  · rfl
  · show pmul (0 ^^^ 1) 1 = 1
    rw [show (0 : Nat) ^^^ 1 = 1 from rfl, pmul_one_one]

/-- Claim C2 (as amended): for every context whose power table holds the
powers pow[i] = H^(8−i) of H = pow[7] under the dot operation — the
Montgomery-twisted product a·b·x^(−128) that the implementation's multiply
computes, rather than the plain GF(2^128) multiplication of the original
wording — and every block-aligned input parsed as little-endian blocks
X_1..X_n, Update succeeds and replaces the state S_0 by S_n of the
recurrence S_i = (S_{i-1} XOR X_i) dot H, leaving h and pow unchanged. -/
theorem claim_C2 (p : Polyval) (blocks : List Nat) (hy : wfFelt p.y)
    (hlen : p.pow.length = 8) (hpw : ∀ x ∈ p.pow, wfFelt x)
    (hpows : ∀ i, i < 8 → feltVal (p.pow.getD i ⟨0, 0⟩) =
      dotPow (feltVal (p.pow.getD 7 ⟨0, 0⟩)) (7 - i))
    (hmod : blocks.length % 16 = 0) (hbytes : ∀ b ∈ blocks, b < 256) :
    ∃ q, Update p blocks = some q ∧ q.h = p.h ∧ q.pow = p.pow ∧
      feltVal q.y = hornerDot (feltVal (p.pow.getD 7 ⟨0, 0⟩)) (feltVal p.y)
        ((parseBlocks blocks).map feltVal) := by
  refine ⟨{ p with y := polymulBlocksGeneric p.y p.pow blocks }, ?_, rfl, rfl, ?_⟩
  · unfold Update
    rw [if_neg (by omega)]
  · exact engineF_horner blocks.length p.y p.pow blocks le_rfl hmod hy hlen hpw
      hpows hbytes

theorem claim_C2_witness :
    ∃ q, Update ⟨⟨0, 0⟩, ⟨1, 2⟩, List.replicate 8 ⟨0, 0⟩⟩ [] = some q ∧
      q.h = (⟨⟨0, 0⟩, ⟨1, 2⟩, List.replicate 8 ⟨0, 0⟩⟩ : Polyval).h ∧
      q.pow = (⟨⟨0, 0⟩, ⟨1, 2⟩, List.replicate 8 ⟨0, 0⟩⟩ : Polyval).pow ∧
      feltVal q.y = hornerDot
        (feltVal ((⟨⟨0, 0⟩, ⟨1, 2⟩, List.replicate 8 ⟨0, 0⟩⟩ :
          Polyval).pow.getD 7 ⟨0, 0⟩))
        (feltVal (⟨⟨0, 0⟩, ⟨1, 2⟩, List.replicate 8 ⟨0, 0⟩⟩ : Polyval).y)
        ((parseBlocks []).map feltVal) :=
  claim_C2 ⟨⟨0, 0⟩, ⟨1, 2⟩, List.replicate 8 ⟨0, 0⟩⟩ [] (by decide) (by decide)
    (by decide)
    (by
      intro i hi
      rw [show feltVal ((⟨⟨0, 0⟩, ⟨1, 2⟩, List.replicate 8 ⟨0, 0⟩⟩ :
            Polyval).pow.getD 7 ⟨0, 0⟩) = 0 from rfl,
        dotPow_zero_left]
      interval_cases i <;> rfl)
    (by decide) (by decide)

end polyval

namespace polyval

theorem newPow_length (h : fieldElement) : (newPow h).length = 8 := rfl

theorem newPow_getD (h : fieldElement) : ∀ i, i < 8 →
    (newPow h).getD i ⟨0, 0⟩ = powChain h (7 - i) := by
  intro i hi
  interval_cases i <;> rfl

/-- Claim C5 counterexample: `New` accepts the key 01 00 .. 00, whose field
element h has value 1; the original wording demands pow[6] = pow[7] · h in
plain GF(2^128), which would be 1 · 1 = 1, but the table actually holds the
dot product x^(−128) ≠ 1. -/
theorem claim_C5_counterexample :
    New [1, 0, 0, 0, 0, 0, 0, 0, 0, 0, 0, 0, 0, 0, 0, 0] =
      .ok ⟨⟨1, 0⟩, ⟨0, 0⟩, newPow ⟨1, 0⟩⟩ ∧
    feltVal (⟨⟨1, 0⟩, ⟨0, 0⟩, newPow ⟨1, 0⟩⟩ : Polyval).h = 1 ∧
    feltVal ((⟨⟨1, 0⟩, ⟨0, 0⟩, newPow ⟨1, 0⟩⟩ : Polyval).pow.getD 7 ⟨0, 0⟩) = 1 ∧
    pmul 1 1 = 1 ∧
    feltVal ((⟨⟨1, 0⟩, ⟨0, 0⟩, newPow ⟨1, 0⟩⟩ : Polyval).pow.getD 6 ⟨0, 0⟩) ≠
      pmul (feltVal ((⟨⟨1, 0⟩, ⟨0, 0⟩, newPow ⟨1, 0⟩⟩ : Polyval).pow.getD 7 ⟨0, 0⟩))
        (feltVal (⟨⟨1, 0⟩, ⟨0, 0⟩, newPow ⟨1, 0⟩⟩ : Polyval).h) := by
  refine ⟨rfl, rfl, rfl, pmul_one_one, ?_⟩
  rw [show feltVal ((⟨⟨1, 0⟩, ⟨0, 0⟩, newPow ⟨1, 0⟩⟩ : Polyval).pow.getD 7 ⟨0, 0⟩) = 1
      from rfl,
    show feltVal (⟨⟨1, 0⟩, ⟨0, 0⟩, newPow ⟨1, 0⟩⟩ : Polyval).h = 1 from rfl,
    pmul_one_one]
  decide

/-- Claim C5 (as amended): after `New` succeeds with key K, h is the
little-endian decoding of K, the table has pow[7] = h and, for i in 0..6,
pow[i] equal to the code's field product of h and pow[i+1] — which realizes
the dot operation h · pow[i+1] · x^(−128) (so pow[i] = h^(8−i) under dot),
not the plain GF(2^128) multiplication of the original wording — and Reset
and every successful Update leave h and pow unchanged. -/
theorem claim_C5 (key : List Nat) (p : Polyval) (hok : New key = .ok p)
    (hbytes : ∀ b ∈ key, b < 256) :
    p.h = setBytes key ∧ p.y = ⟨0, 0⟩ ∧ p.pow.length = 8 ∧
    p.pow.getD 7 ⟨0, 0⟩ = p.h ∧
    (∀ i, i < 7 → p.pow.getD i ⟨0, 0⟩ = polymulGeneric p.h (p.pow.getD (i + 1) ⟨0, 0⟩)) ∧
    (∀ i, i < 8 → feltVal (p.pow.getD i ⟨0, 0⟩) = dotPow (feltVal p.h) (7 - i)) ∧
    (Reset p).h = p.h ∧ (Reset p).pow = p.pow ∧
    (∀ blocks q, Update p blocks = some q → q.h = p.h ∧ q.pow = p.pow) := by
  have hp : p = ⟨setBytes key, ⟨0, 0⟩, newPow (setBytes key)⟩ := by
    unfold New at hok
    by_cases h1 : key.length ≠ 16
    · rw [if_pos h1] at hok
      cases hok
    · rw [if_neg h1] at hok
      by_cases h2 : xorFold key = 0
      · rw [if_pos h2] at hok
        cases hok
      · rw [if_neg h2] at hok
        exact (Except.ok.inj hok).symm
  subst hp
  refine ⟨rfl, rfl, rfl, rfl, ?_, ?_, rfl, rfl, ?_⟩
  · intro i hi
    rw [newPow_getD _ i (by omega), newPow_getD _ (i + 1) (by omega),
      show 7 - i = (7 - (i + 1)) + 1 by omega, powChain_succ]
  · intro i hi
    rw [newPow_getD _ i hi]
    exact powChain_val (setBytes_wf hbytes) (7 - i)
  · intro blocks q hq
    unfold Update at hq
    by_cases hm : blocks.length % 16 ≠ 0
    · rw [if_pos hm] at hq
      cases hq
    · rw [if_neg hm] at hq
      rw [← Option.some.inj hq]
      exact ⟨rfl, rfl⟩

theorem claim_C5_witness :
    New [1, 0, 0, 0, 0, 0, 0, 0, 0, 0, 0, 0, 0, 0, 0, 0] =
        .ok ⟨⟨1, 0⟩, ⟨0, 0⟩, newPow ⟨1, 0⟩⟩ ∧
      ((⟨⟨1, 0⟩, ⟨0, 0⟩, newPow ⟨1, 0⟩⟩ : Polyval).h =
          setBytes [1, 0, 0, 0, 0, 0, 0, 0, 0, 0, 0, 0, 0, 0, 0, 0] ∧
        (⟨⟨1, 0⟩, ⟨0, 0⟩, newPow ⟨1, 0⟩⟩ : Polyval).y = ⟨0, 0⟩ ∧
        (⟨⟨1, 0⟩, ⟨0, 0⟩, newPow ⟨1, 0⟩⟩ : Polyval).pow.length = 8 ∧
        (⟨⟨1, 0⟩, ⟨0, 0⟩, newPow ⟨1, 0⟩⟩ : Polyval).pow.getD 7 ⟨0, 0⟩ =
          (⟨⟨1, 0⟩, ⟨0, 0⟩, newPow ⟨1, 0⟩⟩ : Polyval).h ∧
        (∀ i, i < 7 → (⟨⟨1, 0⟩, ⟨0, 0⟩, newPow ⟨1, 0⟩⟩ : Polyval).pow.getD i ⟨0, 0⟩ =
          polymulGeneric (⟨⟨1, 0⟩, ⟨0, 0⟩, newPow ⟨1, 0⟩⟩ : Polyval).h
            ((⟨⟨1, 0⟩, ⟨0, 0⟩, newPow ⟨1, 0⟩⟩ : Polyval).pow.getD (i + 1) ⟨0, 0⟩)) ∧
        (∀ i, i < 8 → feltVal ((⟨⟨1, 0⟩, ⟨0, 0⟩, newPow ⟨1, 0⟩⟩ :
            Polyval).pow.getD i ⟨0, 0⟩) =
          dotPow (feltVal (⟨⟨1, 0⟩, ⟨0, 0⟩, newPow ⟨1, 0⟩⟩ : Polyval).h) (7 - i)) ∧
        (Reset ⟨⟨1, 0⟩, ⟨0, 0⟩, newPow ⟨1, 0⟩⟩).h =
          (⟨⟨1, 0⟩, ⟨0, 0⟩, newPow ⟨1, 0⟩⟩ : Polyval).h ∧
        (Reset ⟨⟨1, 0⟩, ⟨0, 0⟩, newPow ⟨1, 0⟩⟩).pow =
          (⟨⟨1, 0⟩, ⟨0, 0⟩, newPow ⟨1, 0⟩⟩ : Polyval).pow ∧
        (∀ blocks q, Update ⟨⟨1, 0⟩, ⟨0, 0⟩, newPow ⟨1, 0⟩⟩ blocks = some q →
          q.h = (⟨⟨1, 0⟩, ⟨0, 0⟩, newPow ⟨1, 0⟩⟩ : Polyval).h ∧
          q.pow = (⟨⟨1, 0⟩, ⟨0, 0⟩, newPow ⟨1, 0⟩⟩ : Polyval).pow)) :=
  ⟨rfl, claim_C5 [1, 0, 0, 0, 0, 0, 0, 0, 0, 0, 0, 0, 0, 0, 0, 0]
    ⟨⟨1, 0⟩, ⟨0, 0⟩, newPow ⟨1, 0⟩⟩ rfl (by decide)⟩

end polyval

namespace polyval

theorem putLE64_length (n : Nat) : (putLE64 n).length = 8 := rfl

theorem putFelt_length (f : fieldElement) : (putFelt f).length = 16 := rfl

/-- Little-endian round trip: decoding the 8 bytes written for `a` (with any
trailing bytes) recovers `a` modulo 2^64. -/
theorem le64_putLE64_append (a : Nat) (rest : List Nat) :
    le64 (putLE64 a ++ rest) = a % 2 ^ 64 := by
  show a % 256 + 256 * (a / 256 % 256 + 256 * (a / 256 ^ 2 % 256 + 256 * (a / 256 ^ 3 % 256 +
    256 * (a / 256 ^ 4 % 256 + 256 * (a / 256 ^ 5 % 256 + 256 * (a / 256 ^ 6 % 256 +
    256 * (a / 256 ^ 7 % 256 + 256 * 0))))))) = a % 2 ^ 64
  omega

/-- Field-element round trip: decoding the 16 bytes written for a well-formed
element (with any trailing bytes) recovers the element. -/
theorem setBytes_putFelt_append {f : fieldElement} (hf : wfFelt f) (rest : List Nat) :
    setBytes (putFelt f ++ rest) = f := by
  have hsplit : putFelt f ++ rest = putLE64 f.lo ++ (putLE64 f.hi ++ rest) := by
    rw [putFelt, List.append_assoc]
  have hlo : le64 (putFelt f ++ rest) = f.lo := by
    rw [hsplit, le64_putLE64_append, Nat.mod_eq_of_lt hf.1]
  have hhi : le64 ((putFelt f ++ rest).drop 8) = f.hi := by
    rw [hsplit, List.drop_left' (putLE64_length f.lo), le64_putLE64_append,
      Nat.mod_eq_of_lt hf.2]
  rw [setBytes, hlo, hhi]

theorem setBytes_putFelt {f : fieldElement} (hf : wfFelt f) : setBytes (putFelt f) = f := by
  have h := setBytes_putFelt_append hf []
  rwa [List.append_nil] at h

theorem drop16_putFelt (f : fieldElement) (rest : List Nat) :
    (putFelt f ++ rest).drop 16 = rest :=
  List.drop_left' (putFelt_length f)

theorem drop_putFelt_add (f : fieldElement) (rest : List Nat) (k : Nat) :
    (putFelt f ++ rest).drop (16 + k) = rest.drop k := by
  rw [← List.drop_drop, drop16_putFelt]

theorem join_cons (l : List Nat) (ls : List (List Nat)) : (l :: ls).join = l ++ ls.join := rfl

theorem join_putFelt_length : ∀ fs : List fieldElement,
    ((fs.map putFelt).join).length = 16 * fs.length
  | [] => rfl
  | f :: fs => by
    rw [List.map_cons, join_cons, List.length_append, putFelt_length,
      join_putFelt_length fs, List.length_cons]
    ring

/-- Reading the i-th 16-byte slot of a serialized element table recovers the
i-th element. -/
theorem setBytes_join_getD : ∀ (fs : List fieldElement) (i : Nat), (∀ f ∈ fs, wfFelt f) →
    i < fs.length →
    setBytes ((fs.map putFelt).join.drop (16 * i)) = fs.getD i ⟨0, 0⟩
  | [], i, _, hi => by simp at hi
  | f :: fs, 0, hw, _ => by
    rw [List.map_cons, join_cons, Nat.mul_zero, List.drop_zero, List.getD_cons_zero]
    exact setBytes_putFelt_append (hw f (by simp)) _
  | f :: fs, i + 1, hw, hi => by
    rw [List.map_cons, join_cons, List.getD_cons_succ,
      show 16 * (i + 1) = 16 + 16 * i from by ring, drop_putFelt_add]
    exact setBytes_join_getD fs i (fun a ha => hw a (by simp [ha]))
      (by simp only [List.length_cons] at hi; omega)

end polyval

namespace polyval

/-- Claim C8: marshalling a well-formed context produces exactly 160 bytes —
h, y, then pow[0..7], each as a little-endian u64 pair — and unmarshalling
that output restores the context exactly (hence the same `Sum` output and
the same behaviour under any further `Update`). -/
theorem claim_C8 (p : Polyval) (hh : wfFelt p.h) (hy : wfFelt p.y)
    (hlen : p.pow.length = 8) (hpw : ∀ x ∈ p.pow, wfFelt x) :
    (MarshalBinary p).length = 160 ∧
    UnmarshalBinary (MarshalBinary p) = some p := by
  have h160 : (MarshalBinary p).length = 160 := by
    rw [MarshalBinary, List.length_append, List.length_append, putFelt_length,
      putFelt_length, join_putFelt_length, hlen]
  have hdrop32 : ∀ k, (MarshalBinary p).drop (32 + k) =
      ((p.pow.map putFelt).join).drop k := by
    intro k
    rw [MarshalBinary, List.append_assoc, show 32 + k = 16 + (16 + k) from by omega,
      drop_putFelt_add, drop_putFelt_add]
  refine ⟨h160, ?_⟩
  rw [UnmarshalBinary, if_neg (by omega)]
  rw [Option.some.injEq]
  obtain ⟨ph, py, ppow⟩ := p
  rw [Polyval.mk.injEq]
  refine ⟨?_, ?_, ?_⟩
  · rw [MarshalBinary, List.append_assoc]
    exact setBytes_putFelt_append hh _
  · rw [MarshalBinary, List.append_assoc, drop16_putFelt]
    exact setBytes_putFelt_append hy _
  · apply List.ext_getElem
    · simp [hlen]
    · intro i h1 h2
      rw [List.getElem_map, List.getElem_range, hdrop32 (16 * i),
        ← List.getD_eq_getElem ppow ⟨0, 0⟩ h2]
      exact setBytes_join_getD ppow i hpw h2

theorem claim_C8_witness :
    (MarshalBinary ⟨⟨1, 0⟩, ⟨2, 3⟩, List.replicate 8 ⟨4, 5⟩⟩).length = 160 ∧
      UnmarshalBinary (MarshalBinary ⟨⟨1, 0⟩, ⟨2, 3⟩, List.replicate 8 ⟨4, 5⟩⟩) =
        some ⟨⟨1, 0⟩, ⟨2, 3⟩, List.replicate 8 ⟨4, 5⟩⟩ :=
  claim_C8 ⟨⟨1, 0⟩, ⟨2, 3⟩, List.replicate 8 ⟨4, 5⟩⟩ (by decide) (by decide) (by decide)
    (by decide)

end polyval

namespace polyval

/-- Claim C9: `Sum` returns its argument with exactly the 16 little-endian
bytes of the running state `y` appended (lo limb then hi limb): the prefix
is `b` unchanged, the 16-byte suffix decodes back to `y`, and the context is
untouched — the Go method body never writes through its receiver, which the
embedding reflects by returning only the byte slice. -/
theorem claim_C9 (p : Polyval) (b : List Nat) (hy : wfFelt p.y) :
    Sum p b = b ++ (putLE64 p.y.lo ++ putLE64 p.y.hi) ∧
    (Sum p b).length = b.length + 16 ∧
    (Sum p b).take b.length = b ∧
    setBytes ((Sum p b).drop b.length) = p.y := by
  refine ⟨rfl, ?_, ?_, ?_⟩
  · rw [Sum, List.length_append]
    rfl
  · rw [Sum]
    exact List.take_left b _
  · rw [Sum, List.drop_left]
    exact setBytes_putFelt hy

theorem claim_C9_witness :
    Sum ⟨⟨1, 0⟩, ⟨2, 3⟩, []⟩ [7] =
        [7] ++ (putLE64 (⟨⟨1, 0⟩, ⟨2, 3⟩, []⟩ : Polyval).y.lo ++
          putLE64 (⟨⟨1, 0⟩, ⟨2, 3⟩, []⟩ : Polyval).y.hi) ∧
      (Sum ⟨⟨1, 0⟩, ⟨2, 3⟩, []⟩ [7]).length = ([7] : List Nat).length + 16 ∧
      (Sum ⟨⟨1, 0⟩, ⟨2, 3⟩, []⟩ [7]).take ([7] : List Nat).length = [7] ∧
      setBytes ((Sum ⟨⟨1, 0⟩, ⟨2, 3⟩, []⟩ [7]).drop ([7] : List Nat).length) =
        (⟨⟨1, 0⟩, ⟨2, 3⟩, []⟩ : Polyval).y :=
  claim_C9 ⟨⟨1, 0⟩, ⟨2, 3⟩, []⟩ [7] (by decide)

end polyval

namespace polyval

/-- Claim C10: `UnmarshalBinary` accepts every 160-byte input and overwrites
h, y and pow with the decoded values with no validation of the contents: in
particular it accepts the all-zero encoding — whose key `New` rejects — and
a pow table inconsistent with h, and subsequent `Update`/`Sum` use the
decoded state as-is (here: the zero table forces the state to stay zero even
on non-zero input, and `Sum` serializes the decoded state). -/
theorem claim_C10 (data : List Nat) (hlen : data.length = 160) :
    UnmarshalBinary data = some ⟨setBytes data, setBytes (data.drop 16),
      (List.range 8).map (fun i => setBytes (data.drop (32 + 16 * i)))⟩ ∧
    UnmarshalBinary (List.replicate 160 0) =
      some ⟨⟨0, 0⟩, ⟨0, 0⟩, List.replicate 8 ⟨0, 0⟩⟩ ∧
    New (List.replicate 16 0) = .error KeyErr.invalidKey ∧
    Update ⟨⟨0, 0⟩, ⟨0, 0⟩, List.replicate 8 ⟨0, 0⟩⟩ (List.replicate 16 1) =
      some ⟨⟨0, 0⟩, ⟨0, 0⟩, List.replicate 8 ⟨0, 0⟩⟩ ∧
    Sum ⟨⟨0, 0⟩, ⟨0, 0⟩, List.replicate 8 ⟨0, 0⟩⟩ [] = List.replicate 16 0 := by
  refine ⟨?_, by decide, rfl, ?_, by decide⟩
  · rw [UnmarshalBinary, if_neg (by omega)]
  · rfl

theorem claim_C10_witness :
    UnmarshalBinary (List.replicate 160 0) =
        some ⟨setBytes (List.replicate 160 0), setBytes ((List.replicate 160 0).drop 16),
          (List.range 8).map (fun i => setBytes ((List.replicate 160 0).drop (32 + 16 * i)))⟩ ∧
      UnmarshalBinary (List.replicate 160 0) =
        some ⟨⟨0, 0⟩, ⟨0, 0⟩, List.replicate 8 ⟨0, 0⟩⟩ ∧
      New (List.replicate 16 0) = .error KeyErr.invalidKey ∧
      Update ⟨⟨0, 0⟩, ⟨0, 0⟩, List.replicate 8 ⟨0, 0⟩⟩ (List.replicate 16 1) =
        some ⟨⟨0, 0⟩, ⟨0, 0⟩, List.replicate 8 ⟨0, 0⟩⟩ ∧
      Sum ⟨⟨0, 0⟩, ⟨0, 0⟩, List.replicate 8 ⟨0, 0⟩⟩ [] = List.replicate 16 0 :=
  claim_C10 (List.replicate 160 0) (by decide)

end polyval
